import Mathlib

/-!
Verification of the stepwise sorting engine in `src/Main.py`.

The Python source drives five sorting algorithms as generators yielding the
mutated array after each observable step ("snapshots"), wraps them in a
timing decorator, dispatches through an `AlgorithmContext`, and replays the
snapshots through a GUI callback in `AlgorithmAnalyzer.run_sort`.

We embed the array as a `List Int` together with the Python index operations
(`data[i]` becomes `List.getD data i 0`, `data[i] = v` becomes `List.set`);
every index that the Python code actually reads or writes is in bounds, so
the `getD` default is never observed.  Each generator becomes a function
returning the final array together with the list of snapshots, each snapshot
being the value of the array at the moment of its `yield`.
-/

/-- `data[i], data[j] = data[j], data[i]` — the Python simultaneous swap. -/
def listSwap (a : List Int) (i j : Nat) : List Int :=
  (a.set i (a.getD j 0)).set j (a.getD i 0)

/-- One inner-loop step of `BubbleSort.sort`:
`if data[j] > data[j+1]: swap; yield data`. -/
def bubbleStep (st : List Int × List (List Int)) (j : Nat) :
    List Int × List (List Int) :=
  if st.1.getD j 0 > st.1.getD (j + 1) 0 then
    let a := listSwap st.1 j (j + 1)
    (a, st.2 ++ [a])
  else st

/-- One outer-loop iteration of `BubbleSort.sort`: `for j in range(0, n-i-1)`. -/
def bubblePass (n : Nat) (st : List Int × List (List Int)) (i : Nat) :
    List Int × List (List Int) :=
  (List.range (n - i - 1)).foldl bubbleStep st

/-- `BubbleSort.sort` from `src/Main.py`: full `n` passes, a snapshot after
every swap and only after swaps. -/
def bubbleSort (data : List Int) : List Int × List (List Int) :=
  (List.range data.length).foldl (bubblePass data.length) (data, [])

/-- The `while j >= 0 and key < data[j]` loop of `InsertionSort.sort`,
including the final `data[j+1] = key; yield data`.  We index by
`k = j + 1` (so `k = 0` corresponds to Python's `j = -1`):
while `k ≥ 1` and `key < data[k-1]`, shift `data[k] = data[k-1]` and yield;
afterwards place `data[k] = key` and yield once more. -/
def insertLoop (key : Int) : Nat → List Int → List (List Int) →
    List Int × List (List Int)
  | 0, a, snaps =>
    let a := a.set 0 key
    (a, snaps ++ [a])
  | k + 1, a, snaps =>
    if key < a.getD k 0 then
      let a' := a.set (k + 1) (a.getD k 0)
      insertLoop key k a' (snaps ++ [a'])
    else
      let a' := a.set (k + 1) key
      (a', snaps ++ [a'])

/-- One outer-loop iteration of `InsertionSort.sort`:
`key = data[i]; j = i - 1; …`. -/
def insStep (st : List Int × List (List Int)) (i : Nat) :
    List Int × List (List Int) :=
  insertLoop (st.1.getD i 0) i st.1 st.2

/-- `InsertionSort.sort` from `src/Main.py`: `for i in range(1, len(data))`,
take `key = data[i]` and run the shifting loop. -/
def insertionSort (data : List Int) : List Int × List (List Int) :=
  (List.range' 1 (data.length - 1)).foldl insStep (data, [])

/-- The `for i in range(left, right+1)` loop of `MergeSort._merge`, writing
one element per iteration and yielding after each write.  `cnt` is the
number of iterations left, `i` the write position, `l`, `r` the cursors into
the two copies. -/
def mergeWrite (lc rc : List Int) :
    Nat → Nat → Nat → Nat → List Int → List (List Int) →
    List Int × List (List Int)
  | 0, _, _, _, a, snaps => (a, snaps)
  | cnt + 1, i, l, r, a, snaps =>
    if l < lc.length ∧ (r ≥ rc.length ∨ lc.getD l 0 ≤ rc.getD r 0) then
      let a' := a.set i (lc.getD l 0)
      mergeWrite lc rc cnt (i + 1) (l + 1) r a' (snaps ++ [a'])
    else
      let a' := a.set i (rc.getD r 0)
      mergeWrite lc rc cnt (i + 1) l (r + 1) a' (snaps ++ [a'])

/-- `MergeSort._merge(data, left, mid, right)`: copy the two halves
(`data[left:mid+1]` and `data[mid+1:right+1]`) and merge them back. -/
def mergeSeg (a : List Int) (left mid right : Nat) (snaps : List (List Int)) :
    List Int × List (List Int) :=
  let leftCopy := (a.drop left).take (mid + 1 - left)
  let rightCopy := (a.drop (mid + 1)).take (right + 1 - (mid + 1))
  mergeWrite leftCopy rightCopy (right + 1 - left) left 0 0 a snaps

/-- `MergeSort._merge_sort(data, left, right)`.  In Python `right` may be
`-1` on the top-level call of an empty list; there, as here with truncated
subtraction, the `left < right` guard fails, so behaviour agrees. -/
def mergeSortAux (a : List Int) (left right : Nat) (snaps : List (List Int)) :
    List Int × List (List Int) :=
  if h : left < right then
    let mid := (left + right) / 2
    let r₁ := mergeSortAux a left mid snaps
    let r₂ := mergeSortAux r₁.1 (mid + 1) right r₁.2
    mergeSeg r₂.1 left mid right r₂.2
  else (a, snaps)
termination_by right - left
decreasing_by
  · omega
  · omega

/-- `MergeSort.sort` from `src/Main.py`. -/
def mergeSort (data : List Int) : List Int × List (List Int) :=
  mergeSortAux data 0 (data.length - 1) []

/-- The `for j in range(low, high)` loop of `QuickSort._partition`.  We track
`k = i + 1` (so `k = low` corresponds to Python's initial `i = low - 1`):
when `data[j] <= pivot`, increment and swap `data[i], data[j]`, which with
`k = i + 1` is a swap at positions `k` and `j` followed by `k + 1`. -/
def partitionLoop (pivot : Int) (st : Nat × List Int) (j : Nat) :
    Nat × List Int :=
  if st.2.getD j 0 ≤ pivot then (st.1 + 1, listSwap st.2 st.1 j) else st

/-- `QuickSort._partition(data, low, high)`: Lomuto partition with
`pivot = data[high]`; returns the pivot's final index and the array. -/
def partition (a : List Int) (low high : Nat) : Nat × List Int :=
  let pivot := a.getD high 0
  let st := (List.range' low (high - low)).foldl (partitionLoop pivot) (low, a)
  (st.1, listSwap st.2 st.1 high)

theorem partitionLoop_fst_bounds (pivot : Int) (js : List Nat) (st : Nat × List Int) :
    st.1 ≤ (js.foldl (partitionLoop pivot) st).1 ∧
      (js.foldl (partitionLoop pivot) st).1 ≤ st.1 + js.length := by
  induction js generalizing st with
  | nil => simp
  | cons j js ih =>
    simp only [List.foldl_cons, List.length_cons]
    have h := ih (partitionLoop pivot st j)
    have hstep : st.1 ≤ (partitionLoop pivot st j).1 ∧
        (partitionLoop pivot st j).1 ≤ st.1 + 1 := by
      unfold partitionLoop
      split <;> simp
    omega

theorem partition_fst_bounds (a : List Int) (low high : Nat) (h : low ≤ high) :
    low ≤ (partition a low high).1 ∧ (partition a low high).1 ≤ high := by
  have hb := partitionLoop_fst_bounds (a.getD high 0) (List.range' low (high - low)) (low, a)
  simp only [List.length_range'] at hb
  dsimp only [partition]
  omega

/-- `QuickSort._quick_sort(data, low, high)`: partition, yield the
post-partition array once, then recurse into the two sub-ranges.  Negative
Python indices (`pivot_index - 1` when the pivot lands at 0) only occur as a
`high` argument on which the `low < high` guard fails, exactly as the
truncated Nat subtraction makes it fail here. -/
def quickSortAux (a : List Int) (low high : Nat) (snaps : List (List Int)) :
    List Int × List (List Int) :=
  if h : low < high then
    let p := partition a low high
    have hp := partition_fst_bounds a low high (Nat.le_of_lt h)
    let r₁ := quickSortAux p.2 low (p.1 - 1) (snaps ++ [p.2])
    quickSortAux r₁.1 (p.1 + 1) high r₁.2
  else (a, snaps)
termination_by high - low
decreasing_by
  · omega
  · omega

/-- `QuickSort.sort` from `src/Main.py`. -/
def quickSort (data : List Int) : List Int × List (List Int) :=
  quickSortAux data 0 (data.length - 1) []

/-- The `for j in range(i+1, n)` minimum scan of `SelectionSort.sort`. -/
def findMin (a : List Int) (i n : Nat) : Nat :=
  (List.range' (i + 1) (n - (i + 1))).foldl
    (fun m j => if a.getD j 0 < a.getD m 0 then j else m) i

/-- One outer-loop iteration of `SelectionSort.sort`: scan for the minimum,
then `data[i], data[min_idx] = data[min_idx], data[i]; yield data`. -/
def selStep (n : Nat) (st : List Int × List (List Int)) (i : Nat) :
    List Int × List (List Int) :=
  let m := findMin st.1 i n
  let a := listSwap st.1 i m
  (a, st.2 ++ [a])

/-- `SelectionSort.sort` from `src/Main.py`: one swap and one snapshot per
outer iteration, whether or not the swap moves anything. -/
def selectionSort (data : List Int) : List Int × List (List Int) :=
  (List.range data.length).foldl (selStep data.length) (data, [])

/-- The closed set of strategy classes (`BubbleSort` … `SelectionSort`). -/
inductive Strategy
  | bubble
  | insertion
  | merge
  | quick
  | selection
deriving DecidableEq

/-- Dispatch to the `sort` method of the given strategy class. -/
def strategySort : Strategy → List Int → List Int × List (List Int)
  | .bubble => bubbleSort
  | .insertion => insertionSort
  | .merge => mergeSort
  | .quick => quickSort
  | .selection => selectionSort

/-- The `color` class attribute of each strategy. -/
def Strategy.color : Strategy → String
  | .bubble => "red"
  | .insertion => "green"
  | .merge => "orange"
  | .quick => "purple"
  | .selection => "cyan"

/-- An externally observable side effect of a timed run: either the
`print(f"Execution time: ...")` of `timing_decorator.wrapper`, or the
consumer receiving one yielded snapshot. -/
inductive Event
  | report
  | snap (s : List Int)
deriving DecidableEq

/-- The observable event order of calling a `timing_decorator`-wrapped
`sort` and then draining the returned generator.  In Python, calling the
wrapped generator function runs `wrapper`: it records `start_time`, calls
`func` — which only *creates* the generator object, executing none of its
body — records `end_time`, prints the report, and returns the generator.
The yields all happen later, while the caller drains the sequence, so the
report precedes every snapshot. -/
def timedTrace (sortFn : List Int → List Int × List (List Int))
    (data : List Int) : List Event :=
  Event.report :: (sortFn data).2.map Event.snap

/-- The snapshots a consumer receives out of an event trace. -/
def eventSnapshots (es : List Event) : List (List Int) :=
  es.filterMap fun e => match e with | .report => none | .snap s => some s

/-- `AlgorithmContext` holds the chosen strategy. -/
structure AlgorithmContext where
  strategy : Strategy

/-- `AlgorithmContext.set_strategy`. -/
def AlgorithmContext.set_strategy (_c : AlgorithmContext) (s : Strategy) :
    AlgorithmContext :=
  ⟨s⟩

/-!
To talk about which list object a run mutates, we use a two-cell heap:
`Ref.stored` is the list bound to `self.data` in `AlgorithmAnalyzer`, and
`Ref.fresh` is the fresh object that `self.data.copy()` creates.
-/

/-- A reference to one of the two list objects in play during a run. -/
inductive Ref
  | stored
  | fresh
deriving DecidableEq

/-- `AlgorithmContext.execute(data)` is `return self.strategy.sort(data)`:
no copy is made, so draining the returned generator mutates, in place,
exactly the list object that was passed.  Given the heap and the reference
that was passed, this returns the heap after the sequence is fully consumed
together with the snapshots it yielded. -/
def AlgorithmContext.executeDrain (c : AlgorithmContext) (r : Ref)
    (h : Ref → List Int) : (Ref → List Int) × List (List Int) :=
  (fun q => if q = r then (strategySort c.strategy (h r)).1 else h q,
   (strategySort c.strategy (h r)).2)

/-- `AlgorithmAnalyzer.run_sort`: `generator = context.execute(self.data.copy())`
then `for data in generator: self.draw_data(data); time.sleep(0.1)`.
The `.copy()` allocates the fresh object with the stored list's value and
passes that fresh object to `execute`; the loop then drains the generator
to exhaustion.  Returns the final heap and the list of snapshots rendered
by `draw_data`, in order. -/
def run_sort (c : AlgorithmContext) (h : Ref → List Int) :
    (Ref → List Int) × List (List Int) :=
  c.executeDrain Ref.fresh
    (fun q => if q = Ref.fresh then h Ref.stored else h q)

/-- The loop body of `run_sort` consults no cancellation flag of any kind,
so a cancellation signal raised after `cancelAfter` renders changes nothing:
every snapshot of the sequence is still rendered. -/
def renderedWithCancelAt (c : AlgorithmContext) (h : Ref → List Int)
    (_cancelAfter : Nat) : List (List Int) :=
  (run_sort c h).2

/-!
## Basic lemmas about the index operations

Everything the Python code does to the array goes through `List.getD`,
`List.set` and `listSwap`; these lemmas let the later invariance proofs
work position by position.
-/

theorem getD_set_self (a : List Int) (i : Nat) (x : Int) (h : i < a.length) :
    (a.set i x).getD i 0 = x := by
  rw [List.getD_eq_getElem _ _ (by simpa using h), List.getElem_set]
  simp

theorem getD_set_ne (a : List Int) {i j : Nat} (x : Int) (h : i ≠ j) :
    (a.set i x).getD j 0 = a.getD j 0 := by
  simp [List.getD_eq_getElem?_getD, List.getElem?_set, h]

@[simp] theorem length_listSwap (a : List Int) (i j : Nat) :
    (listSwap a i j).length = a.length := by
  simp [listSwap]

theorem getD_listSwap_fst (a : List Int) {i j : Nat} (h : i ≠ j)
    (hi : i < a.length) : (listSwap a i j).getD i 0 = a.getD j 0 := by
  unfold listSwap
  rw [getD_set_ne _ _ (Ne.symm h)]
  exact getD_set_self a i _ hi

theorem getD_listSwap_snd (a : List Int) {i j : Nat} (h : j < a.length) :
    (listSwap a i j).getD j 0 = a.getD i 0 :=
  getD_set_self _ j _ (by simpa using h)

theorem getD_listSwap_other (a : List Int) {i j p : Nat} (hpi : p ≠ i)
    (hpj : p ≠ j) : (listSwap a i j).getD p 0 = a.getD p 0 := by
  unfold listSwap
  rw [getD_set_ne _ _ (Ne.symm hpj), getD_set_ne _ _ (Ne.symm hpi)]

theorem getElem_cons_set_perm (xs : List Int) :
    ∀ (k : Nat) (hk : k < xs.length) (x : Int),
      (xs[k] :: xs.set k x).Perm (x :: xs) := by
  induction xs with
  | nil => intro k hk; simp at hk
  | cons y ys ih =>
    intro k hk x
    cases k with
    | zero => simpa using List.Perm.swap x y ys
    | succ k =>
      have hk' : k < ys.length := by simpa using hk
      have e1 : ((y :: ys)[k + 1] :: (y :: ys).set (k + 1) x)
          = ys[k] :: y :: ys.set k x := by simp
      rw [e1]
      refine List.Perm.trans (List.Perm.swap y ys[k] _) ?_
      refine List.Perm.trans ((ih k hk' x).cons y) ?_
      exact List.Perm.swap x y ys

theorem listSwap_perm (a : List Int) {i j : Nat} (hi : i < a.length)
    (hj : j < a.length) : (listSwap a i j).Perm a := by
  unfold listSwap
  rw [List.getD_eq_getElem a 0 hj, List.getD_eq_getElem a 0 hi]
  have hbl : j < (a.set i a[j]).length := by simpa using hj
  have h1 := getElem_cons_set_perm (a.set i a[j]) j hbl a[i]
  have h2 := getElem_cons_set_perm a i hi a[j]
  have hbj : (a.set i a[j])[j] = a[j] := by
    rw [List.getElem_set]
    split <;> rfl
  rw [hbj] at h1
  exact (h1.trans h2).cons_inv

theorem sorted_of_getD_pairwise (a : List Int)
    (h : ∀ p q, p < q → q < a.length → a.getD p 0 ≤ a.getD q 0) :
    List.Sorted (· ≤ ·) a := by
  rw [List.Sorted, List.pairwise_iff_getElem]
  intro p q hp hq hpq
  have := h p q hpq hq
  rwa [List.getD_eq_getElem _ _ hp, List.getD_eq_getElem _ _ hq] at this

theorem list_eq_of_getD (X Y : List Int) (hlen : X.length = Y.length)
    (h : ∀ p, X.getD p 0 = Y.getD p 0) : X = Y := by
  refine List.ext_getElem hlen fun p h1 h2 => ?_
  have := h p
  rwa [List.getD_eq_getElem _ _ h1, List.getD_eq_getElem _ _ h2] at this

theorem getD_take (X : List Int) (m p : Nat) :
    (X.take m).getD p 0 = if p < m then X.getD p 0 else 0 := by
  rw [List.getD_eq_getElem?_getD, List.getElem?_take]
  split
  · rw [List.getD_eq_getElem?_getD]
  · rfl

theorem getD_drop (X : List Int) (m t : Nat) :
    (X.drop m).getD t 0 = X.getD (m + t) 0 := by
  rw [List.getD_eq_getElem?_getD, List.getElem?_drop, List.getD_eq_getElem?_getD]

/-!
## Segments of the array

`seg X lo m` is the list of values at positions `lo, …, lo + m - 1`; the
recursive sorts (`_merge_sort`, `_quick_sort`) are specified in terms of
what they do to such a segment.
-/

/-- The contiguous segment of `m` values starting at position `lo`. -/
def seg (X : List Int) (lo m : Nat) : List Int :=
  (X.drop lo).take m

theorem seg_length (X : List Int) (lo m : Nat) (h : lo + m ≤ X.length) :
    (seg X lo m).length = m := by
  simp [seg]
  omega

theorem getD_seg (X : List Int) (lo m t : Nat) :
    (seg X lo m).getD t 0 = if t < m then X.getD (lo + t) 0 else 0 := by
  rw [seg, getD_take, getD_drop]

theorem seg_decomp (X : List Int) (lo m : Nat) :
    X = X.take lo ++ (seg X lo m ++ X.drop (lo + m)) := by
  rw [seg]
  conv_lhs => rw [← List.take_append_drop lo X]
  congr 1
  conv_lhs => rw [← List.take_append_drop m (X.drop lo)]
  rw [List.drop_drop]

theorem seg_split (X : List Int) (lo m m₁ : Nat) (h : m₁ ≤ m) :
    seg X lo m = seg X lo m₁ ++ seg X (lo + m₁) (m - m₁) := by
  unfold seg
  rw [← List.drop_drop m₁ lo X, ← List.take_add]
  congr 1
  omega

theorem seg_eq_of_getD (X Y : List Int) (lo m : Nat)
    (hlen : X.length = Y.length)
    (h : ∀ p, lo ≤ p → p < lo + m → X.getD p 0 = Y.getD p 0) :
    seg X lo m = seg Y lo m := by
  refine list_eq_of_getD _ _ (by simp [seg, hlen]) fun t => ?_
  rw [getD_seg, getD_seg]
  split
  · exact h (lo + t) (by omega) (by omega)
  · rfl

theorem mem_seg_getD (X : List Int) (lo m p : Nat) (h1 : lo ≤ p)
    (h2 : p < lo + m) (h3 : p < X.length) : X.getD p 0 ∈ seg X lo m := by
  have hlt : p - lo < (seg X lo m).length := by
    simp [seg]
    omega
  have : (seg X lo m).getD (p - lo) 0 ∈ seg X lo m := by
    rw [List.getD_eq_getElem _ _ hlt]
    exact List.getElem_mem hlt
  rwa [getD_seg, if_pos (by omega), show lo + (p - lo) = p by omega] at this

theorem seg_mem_getD (X : List Int) (lo m : Nat) {x : Int}
    (h : x ∈ seg X lo m) :
    ∃ t, t < m ∧ lo + t < X.length ∧ x = X.getD (lo + t) 0 := by
  obtain ⟨t, ht, hx⟩ := List.mem_iff_getElem.mp h
  have htm : t < m := by
    have := ht
    simp [seg] at this
    omega
  have htl : lo + t < X.length := by
    have := ht
    simp [seg] at this
    omega
  refine ⟨t, htm, htl, ?_⟩
  rw [← hx, ← List.getD_eq_getElem _ 0 ht, getD_seg, if_pos htm]

/-- Two arrays that agree outside `[lo, lo + m)` and whose `[lo, lo + m)`
segments are permutations of each other are permutations of each other. -/
theorem perm_of_seg_perm (X Y : List Int) (lo m : Nat)
    (hlen : X.length = Y.length)
    (hlo : ∀ p, p < lo → X.getD p 0 = Y.getD p 0)
    (hhi : ∀ p, lo + m ≤ p → X.getD p 0 = Y.getD p 0)
    (hseg : (seg X lo m).Perm (seg Y lo m)) : X.Perm Y := by
  have htake : X.take lo = Y.take lo := by
    refine list_eq_of_getD _ _ (by simp [hlen]) fun p => ?_
    rw [getD_take, getD_take]
    split
    · exact hlo p (by omega)
    · rfl
  have hdrop : X.drop (lo + m) = Y.drop (lo + m) := by
    refine list_eq_of_getD _ _ (by simp [hlen]) fun t => ?_
    rw [getD_drop, getD_drop]
    exact hhi _ (by omega)
  have hX := seg_decomp X lo m
  have hY := seg_decomp Y lo m
  rw [hX, hY, htake, hdrop]
  exact List.Perm.append_left _ (hseg.append (List.Perm.refl _))

/-- Conversely, a permutation that agrees outside `[lo, lo + m)` restricts
to a permutation of the `[lo, lo + m)` segments. -/
theorem seg_perm_of_perm (X Y : List Int) (lo m : Nat)
    (hlen : X.length = Y.length)
    (hperm : X.Perm Y)
    (hlo : ∀ p, p < lo → X.getD p 0 = Y.getD p 0)
    (hhi : ∀ p, lo + m ≤ p → X.getD p 0 = Y.getD p 0) :
    (seg X lo m).Perm (seg Y lo m) := by
  have htake : X.take lo = Y.take lo := by
    refine list_eq_of_getD _ _ (by simp [hlen]) fun p => ?_
    rw [getD_take, getD_take]
    split
    · exact hlo p (by omega)
    · rfl
  have hdrop : X.drop (lo + m) = Y.drop (lo + m) := by
    refine list_eq_of_getD _ _ (by simp [hlen]) fun t => ?_
    rw [getD_drop, getD_drop]
    exact hhi _ (by omega)
  have hX := seg_decomp X lo m
  have hY := seg_decomp Y lo m
  have h1 : (X.take lo ++ (seg X lo m ++ X.drop (lo + m))).Perm
      (Y.take lo ++ (seg Y lo m ++ Y.drop (lo + m))) := by
    rw [← hX, ← hY]
    exact hperm
  rw [htake, hdrop] at h1
  have h2 := (List.perm_append_left_iff _).mp h1
  exact (List.perm_append_right_iff _).mp h2

/-- Segment `[lo, hi]` (inclusive) is sorted, stated pointwise. -/
def SortedSeg (a : List Int) (lo hi : Nat) : Prop :=
  ∀ p q, lo ≤ p → p ≤ q → q ≤ hi → a.getD p 0 ≤ a.getD q 0

/-!
## Snapshot bookkeeping

Every algorithm only ever appends, as a new snapshot, the array exactly as
it stands after the mutation it just performed.  Consequently either no
snapshot has been emitted yet and the array is still the input, or the last
snapshot emitted equals the current array.
-/

/-- Either nothing was emitted and the array is still `D`, or the last
emitted snapshot is the current array. -/
def LastSnapInv (D : List Int) (st : List Int × List (List Int)) : Prop :=
  (st.2 = [] ∧ st.1 = D) ∨ st.2.getLast? = some st.1

theorem lastSnapInv_append (D : List Int) (a : List Int)
    (snaps : List (List Int)) : LastSnapInv D (a, snaps ++ [a]) := by
  right
  exact List.getLast?_concat _

theorem foldl_preserves {α β : Type} (P : α → Prop) (f : α → β → α)
    (l : List β) (h : ∀ st j, j ∈ l → P st → P (f st j)) :
    ∀ st, P st → P (l.foldl f st) := by
  induction l with
  | nil => intro st hst; simpa using hst
  | cons j js ih =>
    intro st hst
    rw [List.foldl_cons]
    exact ih (fun st' j' hj' => h st' j' (List.mem_cons_of_mem _ hj'))
      (f st j) (h st j (List.mem_cons_self _ _) hst)

/-!
## Selection sort
-/

theorem findMin_scan_spec (a : List Int) (js : List Nat) :
    ∀ m0 : Nat,
      (js.foldl (fun m j => if a.getD j 0 < a.getD m 0 then j else m) m0 = m0 ∨
        js.foldl (fun m j => if a.getD j 0 < a.getD m 0 then j else m) m0 ∈ js) ∧
      a.getD (js.foldl (fun m j => if a.getD j 0 < a.getD m 0 then j else m) m0) 0
        ≤ a.getD m0 0 ∧
      ∀ j ∈ js,
        a.getD (js.foldl (fun m j => if a.getD j 0 < a.getD m 0 then j else m) m0) 0
          ≤ a.getD j 0 := by
  induction js with
  | nil => simp
  | cons j js ih =>
    intro m0
    rw [List.foldl_cons]
    by_cases h : a.getD j 0 < a.getD m0 0
    · obtain ⟨hmem, hle, hall⟩ := ih j
      rw [if_pos h] at *
      refine ⟨?_, ?_, ?_⟩
      · rcases hmem with h1 | h1
        · right; rw [h1]; exact List.mem_cons_self _ _
        · right; exact List.mem_cons_of_mem _ h1
      · exact le_of_lt (lt_of_le_of_lt hle h)
      · intro j' hj'
        rcases List.mem_cons.mp hj' with h1 | h1
        · rw [h1]; exact hle
        · exact hall j' h1
    · obtain ⟨hmem, hle, hall⟩ := ih m0
      rw [if_neg h] at *
      refine ⟨?_, hle, ?_⟩
      · rcases hmem with h1 | h1
        · left; exact h1
        · right; exact List.mem_cons_of_mem _ h1
      · intro j' hj'
        rcases List.mem_cons.mp hj' with h1 | h1
        · rw [h1]; exact le_trans hle (le_of_not_lt h)
        · exact hall j' h1

theorem findMin_spec (a : List Int) (i n : Nat) (hin : i < n) :
    i ≤ findMin a i n ∧ findMin a i n < n ∧
      ∀ j, i ≤ j → j < n → a.getD (findMin a i n) 0 ≤ a.getD j 0 := by
  have h := findMin_scan_spec a (List.range' (i + 1) (n - (i + 1))) i
  obtain ⟨hmem, hle, hall⟩ := h
  rw [findMin]
  have hb : i ≤ findMin a i n ∧ findMin a i n < n := by
    rw [findMin]
    rcases hmem with h1 | h1
    · rw [h1]; omega
    · obtain ⟨t, ht, hm⟩ := List.mem_range'.mp h1
      omega
  refine ⟨by rw [findMin] at hb; exact hb.1, by rw [findMin] at hb; exact hb.2, ?_⟩
  intro j hij hjn
  by_cases hji : j = i
  · rw [hji]; exact hle
  · exact hall j (List.mem_range'.mpr ⟨j - (i + 1), by omega, by omega⟩)

theorem selection_fold_inv (D : List Int) :
    ∀ k, k ≤ D.length →
      ((List.range k).foldl (selStep D.length) (D, [])).1.length = D.length ∧
      ((List.range k).foldl (selStep D.length) (D, [])).1.Perm D ∧
      (∀ p q, p ≤ q → p < k → q < D.length →
        ((List.range k).foldl (selStep D.length) (D, [])).1.getD p 0 ≤
          ((List.range k).foldl (selStep D.length) (D, [])).1.getD q 0) ∧
      ((List.range k).foldl (selStep D.length) (D, [])).2.length = k ∧
      LastSnapInv D ((List.range k).foldl (selStep D.length) (D, [])) := by
  intro k
  induction k with
  | zero =>
    intro _
    refine ⟨by simp, by simp, by omega, by simp, Or.inl ⟨by simp, by simp⟩⟩
  | succ k ih =>
    intro hk1
    obtain ⟨hlen, hperm, hsort, hscount, hsnap⟩ := ih (by omega)
    rw [List.range_succ, List.foldl_append, List.foldl_cons, List.foldl_nil]
    set st := (List.range k).foldl (selStep D.length) (D, []) with hst
    have hkn : k < D.length := by omega
    obtain ⟨hmk, hmn, hmin⟩ := findMin_spec st.1 k D.length hkn
    rw [selStep]
    set m := findMin st.1 k D.length with hm
    set b := listSwap st.1 k m with hb
    have hbl : b.length = D.length := by rw [hb, length_listSwap, hlen]
    have hbperm : b.Perm D := by
      refine List.Perm.trans ?_ hperm
      exact listSwap_perm st.1 (by omega) (by omega)
    have hbk : b.getD k 0 = st.1.getD m 0 := by
      by_cases hkm : k = m
      · rw [hb, ← hkm, getD_listSwap_snd _ (by omega), hkm]
      · exact getD_listSwap_fst _ hkm (by omega)
    have hbm : b.getD m 0 = st.1.getD k 0 := getD_listSwap_snd _ (by omega)
    refine ⟨hbl, hbperm, ?_, by simpa using hscount, lastSnapInv_append D b st.2⟩
    intro p q hpq hp hq
    by_cases hpk : p < k
    · have hbp : b.getD p 0 = st.1.getD p 0 :=
        getD_listSwap_other _ (by omega) (by omega)
      by_cases hqk : q = k
      · rw [hbp, hqk, hbk]
        exact hsort p m (by omega) hpk (by omega)
      · by_cases hqm : q = m
        · rw [hbp, hqm, hbm]
          exact hsort p k (by omega) hpk hkn
        · rw [hbp, hb, getD_listSwap_other _ (by omega) (by omega)]
          exact hsort p q hpq hpk hq
    · have hpk' : p = k := by omega
      by_cases hqk : q = k
      · rw [hpk', hqk]
      · by_cases hqm : q = m
        · rw [hpk', hbk, hqm, hbm]
          exact hmin k (le_refl k) hkn
        · rw [hpk', hbk, hb, getD_listSwap_other _ (by omega) (by omega)]
          exact hmin q (by omega) hq

theorem selectionSort_spec (D : List Int) :
    (selectionSort D).1.length = D.length ∧ (selectionSort D).1.Perm D ∧
      List.Sorted (· ≤ ·) (selectionSort D).1 ∧
      (selectionSort D).2.length = D.length ∧
      LastSnapInv D (selectionSort D) := by
  obtain ⟨hlen, hperm, hsort, hscount, hsnap⟩ :=
    selection_fold_inv D D.length (le_refl _)
  have he : selectionSort D = (List.range D.length).foldl (selStep D.length) (D, []) := rfl
  rw [he]
  refine ⟨hlen, hperm, ?_, hscount, hsnap⟩
  refine sorted_of_getD_pairwise _ fun p q hpq hq => ?_
  rw [hlen] at hq
  exact hsort p q (le_of_lt hpq) (by omega) hq

/-!
## Insertion sort
-/

theorem take_set_of_le (a : List Int) (m k : Nat) (x : Int) (h : m ≤ k) :
    (a.set k x).take m = a.take m := by
  refine list_eq_of_getD _ _ (by simp) fun p => ?_
  rw [getD_take, getD_take]
  split
  · exact getD_set_ne a x (by omega)
  · rfl

theorem take_succ_of_lt (a : List Int) (k : Nat) (h : k < a.length) :
    a.take (k + 1) = a.take k ++ [a.getD k 0] := by
  rw [List.take_succ, List.getElem?_eq_getElem h, List.getD_eq_getElem a 0 h]
  rfl

theorem take_eq_seg (a : List Int) (m : Nat) : a.take m = seg a 0 m := by
  simp [seg]

theorem getD_mem_take (a : List Int) (p m : Nat) (hp : p < m)
    (hm : m ≤ a.length) : a.getD p 0 ∈ a.take m := by
  rw [take_eq_seg]
  exact mem_seg_getD a 0 m p (by omega) (by omega) (by omega)

theorem insertLoop_spec :
    ∀ (k : Nat) (a : List Int) (key : Int) (snaps : List (List Int)),
      k < a.length →
      (∀ p q, p ≤ q → q < k → a.getD p 0 ≤ a.getD q 0) →
      (insertLoop key k a snaps).1.length = a.length ∧
      (∀ p, k < p → (insertLoop key k a snaps).1.getD p 0 = a.getD p 0) ∧
      ((insertLoop key k a snaps).1.take (k + 1)).Perm (key :: a.take k) ∧
      (∀ p q, p ≤ q → q ≤ k →
        (insertLoop key k a snaps).1.getD p 0 ≤
          (insertLoop key k a snaps).1.getD q 0) ∧
      (insertLoop key k a snaps).2.getLast? = some (insertLoop key k a snaps).1 := by
  intro k
  induction k with
  | zero =>
    intro a key snaps h0 _
    rw [insertLoop]
    refine ⟨by simp, ?_, ?_, ?_, List.getLast?_concat _⟩
    · intro p hp
      exact getD_set_ne a key (by omega)
    · cases a with
      | nil => simp at h0
      | cons x xs => simp
    · intro p q hpq hq
      have hp0 : p = 0 := by omega
      have hq0 : q = 0 := by omega
      rw [hp0, hq0]
  | succ k ih =>
    intro a key snaps hk1 hsort
    rw [insertLoop]
    by_cases hcond : key < a.getD k 0
    · rw [if_pos hcond]
      have hlen' : k < (a.set (k + 1) (a.getD k 0)).length := by
        simp
        omega
      have hsort' : ∀ p q, p ≤ q → q < k →
          (a.set (k + 1) (a.getD k 0)).getD p 0 ≤
            (a.set (k + 1) (a.getD k 0)).getD q 0 := by
        intro p q hpq hq
        rw [getD_set_ne a _ (by omega), getD_set_ne a _ (by omega)]
        exact hsort p q hpq (by omega)
      obtain ⟨ihlen, ihout, ihperm, ihsort, ihlast⟩ :=
        ih (a.set (k + 1) (a.getD k 0)) key (snaps ++ [a.set (k + 1) (a.getD k 0)])
          hlen' hsort'
      set r := insertLoop key k (a.set (k + 1) (a.getD k 0))
        (snaps ++ [a.set (k + 1) (a.getD k 0)]) with hr
      have hrlen : r.1.length = a.length := by simpa using ihlen
      have hrk1 : r.1.getD (k + 1) 0 = a.getD k 0 := by
        rw [ihout (k + 1) (by omega)]
        exact getD_set_self a (k + 1) _ hk1
      have htk : (a.set (k + 1) (a.getD k 0)).take k = a.take k :=
        take_set_of_le a k (k + 1) _ (by omega)
      rw [htk] at ihperm
      refine ⟨hrlen, ?_, ?_, ?_, ihlast⟩
      · intro p hp
        rw [ihout p (by omega)]
        exact getD_set_ne a _ (by omega)
      · have hsplit : r.1.take (k + 2) = r.1.take (k + 1) ++ [r.1.getD (k + 1) 0] :=
          take_succ_of_lt r.1 (k + 1) (by omega)
        rw [hsplit, hrk1]
        have h1 : (r.1.take (k + 1) ++ [a.getD k 0]).Perm
            ((key :: a.take k) ++ [a.getD k 0]) :=
          List.Perm.append ihperm (List.Perm.refl _)
        refine h1.trans ?_
        rw [List.cons_append, ← take_succ_of_lt a k (by omega)]
      · intro p q hpq hq
        by_cases hq1 : q ≤ k
        · exact ihsort p q hpq hq1
        · have hq2 : q = k + 1 := by omega
          by_cases hp1 : p = k + 1
          · rw [hp1, hq2]
          · have hpk : p ≤ k := by omega
            rw [hq2, hrk1]
            have hmem : r.1.getD p 0 ∈ r.1.take (k + 1) :=
              getD_mem_take r.1 p (k + 1) (by omega) (by omega)
            have hmem2 : r.1.getD p 0 ∈ key :: a.take k := ihperm.subset hmem
            rcases List.mem_cons.mp hmem2 with h1 | h1
            · rw [h1]
              exact le_of_lt hcond
            · rw [take_eq_seg] at h1
              obtain ⟨t, htk', _, hval⟩ := seg_mem_getD a 0 k h1
              rw [hval]
              simp only [Nat.zero_add]
              exact hsort t k (by omega) (by omega)
    · rw [if_neg hcond]
      have hset : ∀ p, p ≤ k → (a.set (k + 1) key).getD p 0 = a.getD p 0 :=
        fun p hp => getD_set_ne a key (by omega)
      have hsetk1 : (a.set (k + 1) key).getD (k + 1) 0 = key :=
        getD_set_self a (k + 1) key hk1
      refine ⟨by simp, ?_, ?_, ?_, List.getLast?_concat _⟩
      · intro p hp
        exact getD_set_ne a key (by omega)
      · have h1 : (a.set (k + 1) key).take (k + 2)
            = (a.set (k + 1) key).take (k + 1) ++ [key] := by
          rw [take_succ_of_lt _ (k + 1) (by simpa using hk1), hsetk1]
        rw [h1, take_set_of_le a (k + 1) (k + 1) key (le_refl _)]
        exact List.perm_append_singleton key _
      · intro p q hpq hq
        by_cases hq1 : q ≤ k
        · rw [hset p (by omega), hset q hq1]
          exact hsort p q hpq (by omega)
        · have hq2 : q = k + 1 := by omega
          by_cases hp1 : p = k + 1
          · rw [hp1, hq2]
          · have hpk : p ≤ k := by omega
            rw [hq2, hsetk1, hset p hpk]
            have h1 : a.getD p 0 ≤ a.getD k 0 := hsort p k hpk (by omega)
            have h2 : a.getD k 0 ≤ key := le_of_not_lt hcond
            exact le_trans h1 h2

theorem insertion_fold_inv (D : List Int) :
    ∀ t, t ≤ D.length - 1 →
      ((List.range' 1 t).foldl insStep (D, [])).1.length = D.length ∧
      ((List.range' 1 t).foldl insStep (D, [])).1.Perm D ∧
      (∀ p, t < p →
        ((List.range' 1 t).foldl insStep (D, [])).1.getD p 0 = D.getD p 0) ∧
      (∀ p q, p ≤ q → q ≤ t →
        ((List.range' 1 t).foldl insStep (D, [])).1.getD p 0 ≤
          ((List.range' 1 t).foldl insStep (D, [])).1.getD q 0) ∧
      LastSnapInv D ((List.range' 1 t).foldl insStep (D, [])) := by
  intro t
  induction t with
  | zero =>
    intro _
    refine ⟨by simp, by simp, by simp, ?_, Or.inl ⟨by simp, by simp⟩⟩
    intro p q hpq hq
    have hp0 : p = 0 := by omega
    have hq0 : q = 0 := by omega
    rw [hp0, hq0]
  | succ t ih =>
    intro ht1
    obtain ⟨hlen, hperm, hout, hsort, hsnap⟩ := ih (by omega)
    have hrange : List.range' 1 (t + 1) = List.range' 1 t ++ [t + 1] := by
      rw [List.range'_concat]
      congr 1
      simp
      omega
    rw [hrange, List.foldl_append, List.foldl_cons, List.foldl_nil]
    set st := (List.range' 1 t).foldl insStep (D, []) with hst
    have hi : t + 1 < D.length := by omega
    have hi' : t + 1 < st.1.length := by omega
    have hsort' : ∀ p q, p ≤ q → q < t + 1 → st.1.getD p 0 ≤ st.1.getD q 0 :=
      fun p q hpq hq => hsort p q hpq (by omega)
    obtain ⟨slen, sout, sperm, ssort, slast⟩ :=
      insertLoop_spec (t + 1) st.1 (st.1.getD (t + 1) 0) st.2 hi' hsort'
    rw [insStep]
    set r := insertLoop (st.1.getD (t + 1) 0) (t + 1) st.1 st.2 with hr
    have hrlen : r.1.length = D.length := by omega
    refine ⟨hrlen, ?_, ?_, ssort, Or.inr slast⟩
    · have hseg : (seg r.1 0 (t + 2)).Perm (seg st.1 0 (t + 2)) := by
        rw [← take_eq_seg, ← take_eq_seg]
        refine sperm.trans ?_
        refine (List.perm_append_singleton _ _).symm.trans ?_
        rw [← take_succ_of_lt st.1 (t + 1) hi']
      have hr1 : r.1.Perm st.1 := by
        refine perm_of_seg_perm r.1 st.1 0 (t + 2) (by omega) (by omega) ?_ hseg
        intro p hp
        exact sout p (by omega)
      exact hr1.trans hperm
    · intro p hp
      rw [sout p (by omega)]
      exact hout p (by omega)

theorem insertionSort_spec (D : List Int) :
    (insertionSort D).1.length = D.length ∧ (insertionSort D).1.Perm D ∧
      List.Sorted (· ≤ ·) (insertionSort D).1 ∧
      LastSnapInv D (insertionSort D) := by
  obtain ⟨hlen, hperm, _, hsort, hsnap⟩ :=
    insertion_fold_inv D (D.length - 1) (le_refl _)
  have he : insertionSort D = (List.range' 1 (D.length - 1)).foldl insStep (D, []) := rfl
  rw [he]
  refine ⟨hlen, hperm, ?_, hsnap⟩
  refine sorted_of_getD_pairwise _ fun p q hpq hq => ?_
  rw [hlen] at hq
  exact hsort p q (le_of_lt hpq) (by omega)

/-!
## Bubble sort
-/

theorem bubbleStep_lastSnapInv (D : List Int) (st : List Int × List (List Int))
    (j : Nat) (h : LastSnapInv D st) : LastSnapInv D (bubbleStep st j) := by
  rw [bubbleStep]
  split
  · exact lastSnapInv_append D _ st.2
  · exact h

theorem bubble_inner_inv (A : List Int) (snaps0 : List (List Int)) (m : Nat)
    (hm : m < A.length) :
    ∀ t, t ≤ m →
      ((List.range t).foldl bubbleStep (A, snaps0)).1.length = A.length ∧
      ((List.range t).foldl bubbleStep (A, snaps0)).1.Perm A ∧
      (∀ p, t < p →
        ((List.range t).foldl bubbleStep (A, snaps0)).1.getD p 0 = A.getD p 0) ∧
      (∀ p, p ≤ t → ∃ q, q ≤ t ∧
        ((List.range t).foldl bubbleStep (A, snaps0)).1.getD p 0 = A.getD q 0) ∧
      (∀ p, p ≤ t →
        ((List.range t).foldl bubbleStep (A, snaps0)).1.getD p 0 ≤
          ((List.range t).foldl bubbleStep (A, snaps0)).1.getD t 0) := by
  intro t
  induction t with
  | zero =>
    intro _
    exact ⟨by simp, by simp, by simp, fun p hp => ⟨p, hp, by simp⟩,
      fun p hp => by rw [show p = 0 by omega]⟩
  | succ t ih =>
    intro ht1
    obtain ⟨hlen, hperm, hout, hex, hmax⟩ := ih (by omega)
    rw [List.range_succ, List.foldl_append, List.foldl_cons, List.foldl_nil]
    set st := (List.range t).foldl bubbleStep (A, snaps0) with hst
    rw [bubbleStep]
    by_cases hc : st.1.getD t 0 > st.1.getD (t + 1) 0
    · rw [if_pos hc]
      have ht1l : t + 1 < st.1.length := by omega
      have hbt : (listSwap st.1 t (t + 1)).getD t 0 = st.1.getD (t + 1) 0 :=
        getD_listSwap_fst _ (by omega) (by omega)
      have hbt1 : (listSwap st.1 t (t + 1)).getD (t + 1) 0 = st.1.getD t 0 :=
        getD_listSwap_snd _ ht1l
      refine ⟨by simpa using hlen, ?_, ?_, ?_, ?_⟩
      · exact (listSwap_perm st.1 (by omega) (by omega)).trans hperm
      · intro p hp
        rw [getD_listSwap_other _ (by omega) (by omega)]
        exact hout p (by omega)
      · intro p hp
        by_cases hp1 : p = t + 1
        · obtain ⟨q, hq, hval⟩ := hex t (le_refl t)
          exact ⟨q, by omega, by rw [hp1, hbt1, hval]⟩
        · by_cases hp2 : p = t
          · refine ⟨t + 1, le_refl _, ?_⟩
            rw [hp2, hbt]
            exact hout (t + 1) (by omega)
          · obtain ⟨q, hq, hval⟩ := hex p (by omega)
            refine ⟨q, by omega, ?_⟩
            rw [getD_listSwap_other _ (by omega) (by omega)]
            exact hval
      · intro p hp
        rw [hbt1]
        by_cases hp1 : p = t + 1
        · rw [hp1, hbt1]
        · by_cases hp2 : p = t
          · rw [hp2, hbt]
            exact le_of_lt hc
          · rw [getD_listSwap_other _ (by omega) (by omega)]
            exact hmax p (by omega)
    · rw [if_neg hc]
      have hle : st.1.getD t 0 ≤ st.1.getD (t + 1) 0 := le_of_not_lt hc
      refine ⟨hlen, hperm, ?_, ?_, ?_⟩
      · intro p hp
        exact hout p (by omega)
      · intro p hp
        by_cases hp1 : p = t + 1
        · exact ⟨t + 1, le_refl _, by rw [hp1, hout (t + 1) (by omega)]⟩
        · obtain ⟨q, hq, hval⟩ := hex p (by omega)
          exact ⟨q, by omega, hval⟩
      · intro p hp
        by_cases hp1 : p = t + 1
        · rw [hp1]
        · exact le_trans (hmax p (by omega)) hle

theorem bubble_outer_inv (D : List Int) :
    ∀ i, i ≤ D.length →
      ((List.range i).foldl (bubblePass D.length) (D, [])).1.length = D.length ∧
      ((List.range i).foldl (bubblePass D.length) (D, [])).1.Perm D ∧
      (∀ p q, p ≤ q → D.length - i ≤ q → q < D.length →
        ((List.range i).foldl (bubblePass D.length) (D, [])).1.getD p 0 ≤
          ((List.range i).foldl (bubblePass D.length) (D, [])).1.getD q 0) := by
  intro i
  induction i with
  | zero =>
    intro _
    exact ⟨by simp, by simp, fun p q _ h1 h2 => by omega⟩
  | succ i ih =>
    intro hi1
    obtain ⟨hlen, hperm, hsort⟩ := ih (by omega)
    rw [List.range_succ, List.foldl_append, List.foldl_cons, List.foldl_nil]
    set st := (List.range i).foldl (bubblePass D.length) (D, []) with hst
    rw [bubblePass]
    set m := D.length - i - 1 with hmdef
    have hmlen : m < st.1.length := by omega
    obtain ⟨ilen, iperm, iout, iex, imax⟩ :=
      bubble_inner_inv st.1 st.2 m hmlen m (le_refl m)
    have hcast : (List.range (D.length - i - 1)).foldl bubbleStep (st.1, st.2)
        = (List.range m).foldl bubbleStep (st.1, st.2) := rfl
    rw [hcast]
    refine ⟨by omega, iperm.trans hperm, ?_⟩
    intro p q hpq hq1 hq2
    by_cases hqm : q = m
    · rw [hqm]
      exact imax p (by omega)
    · have hqgt : m < q := by omega
      rw [iout q hqgt]
      by_cases hpm : p ≤ m
      · obtain ⟨q', hq', hval⟩ := iex p hpm
        rw [hval]
        exact hsort q' q (by omega) (by omega) hq2
      · rw [iout p (by omega)]
        exact hsort p q hpq (by omega) hq2

theorem bubbleSort_spec (D : List Int) :
    (bubbleSort D).1.length = D.length ∧ (bubbleSort D).1.Perm D ∧
      List.Sorted (· ≤ ·) (bubbleSort D).1 ∧ LastSnapInv D (bubbleSort D) := by
  obtain ⟨hlen, hperm, hsort⟩ := bubble_outer_inv D D.length (le_refl _)
  have he : bubbleSort D = (List.range D.length).foldl (bubblePass D.length) (D, []) := rfl
  have hsnap : LastSnapInv D (bubbleSort D) := by
    rw [he]
    refine foldl_preserves (LastSnapInv D) (bubblePass D.length) _ ?_ (D, [])
      (Or.inl ⟨rfl, rfl⟩)
    intro s i _ hs
    rw [bubblePass]
    exact foldl_preserves (LastSnapInv D) bubbleStep _
      (fun s' j _ hs' => bubbleStep_lastSnapInv D s' j hs') (s.1, s.2) hs
  rw [he] at hsnap ⊢
  refine ⟨hlen, hperm, ?_, hsnap⟩
  refine sorted_of_getD_pairwise _ fun p q hpq hq => ?_
  rw [hlen] at hq
  exact hsort p q (le_of_lt hpq) (by omega) hq

theorem sorted_adjacent_getD (D : List Int) (h : List.Sorted (· ≤ ·) D) :
    ∀ j, j + 1 < D.length → D.getD j 0 ≤ D.getD (j + 1) 0 := by
  intro j hj
  rw [List.getD_eq_getElem _ _ (by omega), List.getD_eq_getElem _ _ hj]
  exact (List.pairwise_iff_getElem.mp h) j (j + 1) (by omega) hj (by omega)

theorem bubbleSort_sorted_id (D : List Int) (h : List.Sorted (· ≤ ·) D) :
    bubbleSort D = (D, []) := by
  have hadj := sorted_adjacent_getD D h
  have he : bubbleSort D = (List.range D.length).foldl (bubblePass D.length) (D, []) := rfl
  rw [he]
  refine foldl_preserves (fun st => st = (D, [])) (bubblePass D.length) _ ?_ _ rfl
  intro st i hi hst
  rw [bubblePass]
  refine foldl_preserves (fun st => st = (D, [])) bubbleStep _ ?_ _ (by rw [hst])
  intro st' j hj hst'
  have hjm : j < D.length - i - 1 := List.mem_range.mp hj
  rw [hst', bubbleStep]
  rw [if_neg ?_]
  simp only [not_lt]
  exact hadj j (by omega)

/-!
## Merge sort
-/

theorem mergeSortAux_pos (a : List Int) (left right : Nat)
    (snaps : List (List Int)) (h : left < right) :
    mergeSortAux a left right snaps =
      mergeSeg (mergeSortAux (mergeSortAux a left ((left + right) / 2) snaps).1
          ((left + right) / 2 + 1) right
          (mergeSortAux a left ((left + right) / 2) snaps).2).1
        left ((left + right) / 2) right
        (mergeSortAux (mergeSortAux a left ((left + right) / 2) snaps).1
          ((left + right) / 2 + 1) right
          (mergeSortAux a left ((left + right) / 2) snaps).2).2 := by
  rw [mergeSortAux]
  rw [dif_pos h]

theorem mergeSortAux_neg (a : List Int) (left right : Nat)
    (snaps : List (List Int)) (h : ¬ left < right) :
    mergeSortAux a left right snaps = (a, snaps) := by
  rw [mergeSortAux]
  rw [dif_neg h]

/-- The sequence of array states produced by writing the values `vs` into
consecutive positions starting at `i`; `mergeWrite` is this together with
one snapshot per write. -/
def writeSeg : List Int → Nat → List Int → List Int
  | a, _, [] => a
  | a, i, v :: vs => writeSeg (a.set i v) (i + 1) vs

theorem writeSeg_length (vs : List Int) :
    ∀ (a : List Int) (i : Nat), (writeSeg a i vs).length = a.length := by
  induction vs with
  | nil => intro a i; rfl
  | cons v vs ih =>
    intro a i
    rw [writeSeg, ih]
    simp

theorem getD_writeSeg_lt (vs : List Int) :
    ∀ (a : List Int) (i p : Nat), p < i →
      (writeSeg a i vs).getD p 0 = a.getD p 0 := by
  induction vs with
  | nil => intro a i p _; rfl
  | cons v vs ih =>
    intro a i p hp
    rw [writeSeg, ih _ _ _ (by omega)]
    exact getD_set_ne a v (by omega)

theorem getD_writeSeg_ge (vs : List Int) :
    ∀ (a : List Int) (i p : Nat), i + vs.length ≤ p →
      (writeSeg a i vs).getD p 0 = a.getD p 0 := by
  induction vs with
  | nil => intro a i p _; rfl
  | cons v vs ih =>
    intro a i p hp
    rw [writeSeg, ih _ _ _ (by simp at hp ⊢; omega)]
    exact getD_set_ne a v (by simp at hp; omega)

theorem getD_writeSeg_in (vs : List Int) :
    ∀ (a : List Int) (i t : Nat), t < vs.length → i + vs.length ≤ a.length →
      (writeSeg a i vs).getD (i + t) 0 = vs.getD t 0 := by
  induction vs with
  | nil => intro a i t ht _; simp at ht
  | cons v vs ih =>
    intro a i t ht hlen
    cases t with
    | zero =>
      rw [writeSeg, getD_writeSeg_lt vs _ _ _ (by omega), Nat.add_zero]
      rw [getD_set_self a i v (by simp at hlen; omega)]
      rfl
    | succ t =>
      rw [writeSeg, show i + (t + 1) = (i + 1) + t by omega,
        ih _ _ _ (by simpa using ht) (by simp at hlen ⊢; omega)]
      rfl

theorem mergeWrite_fst (lc rc : List Int) :
    ∀ (cnt : Nat), ∀ (l r i : Nat) (a : List Int) (snaps : List (List Int)),
      cnt = (lc.length - l) + (rc.length - r) → l ≤ lc.length → r ≤ rc.length →
      (mergeWrite lc rc cnt i l r a snaps).1 =
        writeSeg a i ((lc.drop l).merge (rc.drop r) (fun x y => decide (x ≤ y))) := by
  intro cnt
  induction cnt with
  | zero =>
    intro l r i a snaps hcnt hl hr
    have hl' : l = lc.length := by omega
    have hr' : r = rc.length := by omega
    rw [mergeWrite, hl', hr', List.drop_length, List.drop_length, List.nil_merge]
    rfl
  | succ cnt ih =>
    intro l r i a snaps hcnt hl hr
    rw [mergeWrite]
    by_cases hlb : l < lc.length
    · have hdl : lc.drop l = lc[l] :: lc.drop (l + 1) := List.drop_eq_getElem_cons hlb
      have hgl : lc.getD l 0 = lc[l] := List.getD_eq_getElem lc 0 hlb
      by_cases hrb : r < rc.length
      · have hdr : rc.drop r = rc[r] :: rc.drop (r + 1) := List.drop_eq_getElem_cons hrb
        have hgr : rc.getD r 0 = rc[r] := List.getD_eq_getElem rc 0 hrb
        rw [hdl, hdr, List.cons_merge_cons]
        by_cases hcmp : lc.getD l 0 ≤ rc.getD r 0
        · rw [if_pos ⟨hlb, Or.inr hcmp⟩]
          have : (decide (lc[l] ≤ rc[r]) : Bool) = true := by
            rw [← hgl, ← hgr]
            simpa using hcmp
          rw [this]
          simp only [if_true]
          rw [writeSeg, ih (l + 1) r (i + 1) _ _ (by omega) (by omega) (by omega)]
          rw [hdr, hgl]
        · rw [if_neg ?_]
          · have : (decide (lc[l] ≤ rc[r]) : Bool) = false := by
              rw [← hgl, ← hgr]
              simpa using hcmp
            rw [this]
            simp only [Bool.false_eq_true, if_false]
            rw [writeSeg, ih l (r + 1) (i + 1) _ _ (by omega) (by omega) (by omega)]
            rw [hdl, hgr]
          · push_neg
            intro _
            constructor
            · omega
            · exact lt_of_not_le hcmp
      · have hr' : r = rc.length := by omega
        rw [if_pos ⟨hlb, Or.inl (by omega)⟩]
        rw [hr', List.drop_length, List.merge_right, hdl]
        rw [writeSeg, ih (l + 1) rc.length (i + 1) _ _ (by omega) (by omega) (le_refl _)]
        rw [List.drop_length, List.merge_right, hgl]
    · have hl' : l = lc.length := by omega
      have hrb : r < rc.length := by omega
      have hdr : rc.drop r = rc[r] :: rc.drop (r + 1) := List.drop_eq_getElem_cons hrb
      have hgr : rc.getD r 0 = rc[r] := List.getD_eq_getElem rc 0 hrb
      rw [if_neg (by push_neg; intro hcon; omega)]
      rw [hl', List.drop_length, List.nil_merge, hdr]
      rw [writeSeg, ih lc.length (r + 1) (i + 1) _ _ (by omega) (le_refl _) (by omega)]
      rw [List.drop_length, List.nil_merge, hgr]

theorem mergeWrite_lastSnapInv (lc rc : List Int) (D : List Int) :
    ∀ (cnt : Nat), ∀ (l r i : Nat) (a : List Int) (snaps : List (List Int)),
      LastSnapInv D (a, snaps) →
      LastSnapInv D (mergeWrite lc rc cnt i l r a snaps) := by
  intro cnt
  induction cnt with
  | zero => intro l r i a snaps h; exact h
  | succ cnt ih =>
    intro l r i a snaps _
    rw [mergeWrite]
    split
    · exact ih _ _ _ _ _ (lastSnapInv_append D _ snaps)
    · exact ih _ _ _ _ _ (lastSnapInv_append D _ snaps)

theorem getD_of_ge (X : List Int) (p : Nat) (h : X.length ≤ p) :
    X.getD p 0 = 0 := by
  rw [List.getD_eq_getElem?_getD, List.getElem?_eq_none h]
  rfl

theorem pairwise_seg_of_sortedSeg (a : List Int) (lo hi : Nat)
    (hhi : hi < a.length) (h : SortedSeg a lo hi) :
    List.Pairwise (fun x y : Int => (fun u v : Int => decide (u ≤ v)) x y = true)
      (seg a lo (hi + 1 - lo)) := by
  rw [List.pairwise_iff_getElem]
  intro t u ht hu htu
  have hlen : (seg a lo (hi + 1 - lo)).length ≤ hi + 1 - lo := by
    simp [seg]
  have hgt : (seg a lo (hi + 1 - lo))[t] = a.getD (lo + t) 0 := by
    rw [← List.getD_eq_getElem _ 0 ht, getD_seg, if_pos (by omega)]
  have hgu : (seg a lo (hi + 1 - lo))[u] = a.getD (lo + u) 0 := by
    rw [← List.getD_eq_getElem _ 0 hu, getD_seg, if_pos (by omega)]
  rw [hgt, hgu]
  simp only [decide_eq_true_eq]
  exact h (lo + t) (lo + u) (by omega) (by omega) (by omega)

theorem mergeSeg_spec (a : List Int) (left mid right : Nat)
    (snaps : List (List Int)) (h1 : left ≤ mid) (h2 : mid < right)
    (h3 : right < a.length)
    (hs1 : SortedSeg a left mid) (hs2 : SortedSeg a (mid + 1) right) :
    (mergeSeg a left mid right snaps).1.length = a.length ∧
    (∀ p, p < left → (mergeSeg a left mid right snaps).1.getD p 0 = a.getD p 0) ∧
    (∀ p, right < p → (mergeSeg a left mid right snaps).1.getD p 0 = a.getD p 0) ∧
    (seg (mergeSeg a left mid right snaps).1 left (right + 1 - left)).Perm
      (seg a left (right + 1 - left)) ∧
    SortedSeg (mergeSeg a left mid right snaps).1 left right := by
  have hlc : ((a.drop left).take (mid + 1 - left)).length = mid + 1 - left := by
    simp
    omega
  have hrc : ((a.drop (mid + 1)).take (right + 1 - (mid + 1))).length
      = right + 1 - (mid + 1) := by
    simp
    omega
  have hfst : (mergeSeg a left mid right snaps).1 =
      writeSeg a left (((a.drop left).take (mid + 1 - left)).merge
        ((a.drop (mid + 1)).take (right + 1 - (mid + 1)))
        (fun x y => decide (x ≤ y))) := by
    rw [mergeSeg]
    rw [mergeWrite_fst _ _ _ 0 0 left a snaps (by rw [hlc, hrc]; omega)
      (by omega) (by omega)]
    rw [List.drop_zero, List.drop_zero]
  set M := ((a.drop left).take (mid + 1 - left)).merge
    ((a.drop (mid + 1)).take (right + 1 - (mid + 1)))
    (fun x y => decide (x ≤ y)) with hMdef
  have hMlen : M.length = right + 1 - left := by
    rw [hMdef, List.length_merge, hlc, hrc]
    omega
  have hMsorted : List.Pairwise (fun x y : Int =>
      (fun u v : Int => decide (u ≤ v)) x y = true) M := by
    refine List.sorted_merge ?_ ?_ _ _ ?_ ?_
    · intro x y z hxy hyz
      simp only [decide_eq_true_eq] at *
      omega
    · intro x y
      simpa using le_total x y
    · exact pairwise_seg_of_sortedSeg a left mid (by omega) hs1
    · have := pairwise_seg_of_sortedSeg a (mid + 1) right h3 hs2
      simpa [seg] using this
  have hflen : (mergeSeg a left mid right snaps).1.length = a.length := by
    rw [hfst, writeSeg_length]
  have hin : ∀ t, t < M.length →
      (mergeSeg a left mid right snaps).1.getD (left + t) 0 = M.getD t 0 := by
    intro t ht
    rw [hfst]
    exact getD_writeSeg_in M a left t ht (by omega)
  refine ⟨hflen, ?_, ?_, ?_, ?_⟩
  · intro p hp
    rw [hfst]
    exact getD_writeSeg_lt M a left p hp
  · intro p hp
    rw [hfst]
    exact getD_writeSeg_ge M a left p (by omega)
  · have hsegM : seg (mergeSeg a left mid right snaps).1 left (right + 1 - left)
        = M := by
      refine list_eq_of_getD _ _ ?_ ?_
      · rw [seg_length _ _ _ (by omega), hMlen]
      · intro p
        rw [getD_seg]
        split
        · rw [hin p (by omega)]
        · rw [getD_of_ge M p (by omega)]
    rw [hsegM]
    have e1 : left + (mid + 1 - left) = mid + 1 := by omega
    have e2 : right + 1 - left - (mid + 1 - left) = right + 1 - (mid + 1) := by
      omega
    rw [seg_split a left (right + 1 - left) (mid + 1 - left) (by omega), e1, e2]
    exact List.merge_perm_append _
  · intro p q hlp hpq hqr
    by_cases hpq' : p = q
    · rw [hpq']
    · have ht : p - left < M.length := by omega
      have hu : q - left < M.length := by omega
      have hvp : (mergeSeg a left mid right snaps).1.getD p 0
          = M.getD (p - left) 0 := by
        conv_lhs => rw [show p = left + (p - left) by omega]
        exact hin (p - left) ht
      have hvq : (mergeSeg a left mid right snaps).1.getD q 0
          = M.getD (q - left) 0 := by
        conv_lhs => rw [show q = left + (q - left) by omega]
        exact hin (q - left) hu
      rw [hvp, hvq, List.getD_eq_getElem _ 0 ht, List.getD_eq_getElem _ 0 hu]
      have := (List.pairwise_iff_getElem.mp hMsorted) (p - left) (q - left)
        ht hu (by omega)
      simpa using this

theorem sortedSeg_congr (X Y : List Int) (lo hi : Nat)
    (h : ∀ p, lo ≤ p → p ≤ hi → X.getD p 0 = Y.getD p 0)
    (hs : SortedSeg Y lo hi) : SortedSeg X lo hi := by
  intro p q h1 h2 h3
  rw [h p h1 (by omega), h q (by omega) h3]
  exact hs p q h1 h2 h3

theorem seg_split_at_mid (X : List Int) (left mid right : Nat)
    (h1 : left ≤ mid) (h2 : mid ≤ right) :
    seg X left (right + 1 - left)
      = seg X left (mid + 1 - left) ++ seg X (mid + 1) (right - mid) := by
  have e1 : left + (mid + 1 - left) = mid + 1 := by omega
  have e2 : right + 1 - left - (mid + 1 - left) = right - mid := by omega
  rw [seg_split X left (right + 1 - left) (mid + 1 - left) (by omega), e1, e2]

theorem mergeSortAux_spec :
    ∀ (n : Nat), ∀ (left right : Nat) (a : List Int) (snaps : List (List Int)),
      right - left ≤ n → right < a.length →
      (mergeSortAux a left right snaps).1.length = a.length ∧
      (∀ p, p < left →
        (mergeSortAux a left right snaps).1.getD p 0 = a.getD p 0) ∧
      (∀ p, right < p →
        (mergeSortAux a left right snaps).1.getD p 0 = a.getD p 0) ∧
      (seg (mergeSortAux a left right snaps).1 left (right + 1 - left)).Perm
        (seg a left (right + 1 - left)) ∧
      SortedSeg (mergeSortAux a left right snaps).1 left right := by
  intro n
  induction n with
  | zero =>
    intro left right a snaps hb hlen
    rw [mergeSortAux_neg a left right snaps (by omega)]
    refine ⟨rfl, fun p _ => rfl, fun p _ => rfl, List.Perm.refl _, ?_⟩
    intro p q h1 h2 h3
    have hpq : p = q := by omega
    rw [hpq]
  | succ n ih =>
    intro left right a snaps hb hlen
    by_cases hlr : left < right
    · rw [mergeSortAux_pos a left right snaps hlr]
      set mid := (left + right) / 2 with hmid
      have hm1 : left ≤ mid := by omega
      have hm2 : mid < right := by omega
      obtain ⟨len1, lo1, hi1, perm1, sort1⟩ :=
        ih left mid a snaps (by omega) (by omega)
      set r₁ := mergeSortAux a left mid snaps with hr₁
      obtain ⟨len2, lo2, hi2, perm2, sort2⟩ :=
        ih (mid + 1) right r₁.1 r₁.2 (by omega) (by omega)
      set r₂ := mergeSortAux r₁.1 (mid + 1) right r₁.2 with hr₂
      have hlen2 : right < r₂.1.length := by omega
      have hsegsorted1 : SortedSeg r₂.1 left mid := by
        refine sortedSeg_congr r₂.1 r₁.1 left mid ?_ sort1
        intro p hp1 hp2
        exact lo2 p (by omega)
      obtain ⟨mlen, mlo, mhi, mperm, msort⟩ :=
        mergeSeg_spec r₂.1 left mid right r₂.2 hm1 hm2 hlen2 hsegsorted1 sort2
      refine ⟨by omega, ?_, ?_, ?_, msort⟩
      · intro p hp
        rw [mlo p hp, lo2 p (by omega), lo1 p hp]
      · intro p hp
        rw [mhi p hp, hi2 p hp, hi1 p (by omega)]
      · refine mperm.trans ?_
        have hB1 : seg r₂.1 left (mid + 1 - left) = seg r₁.1 left (mid + 1 - left) := by
          refine seg_eq_of_getD _ _ _ _ (by omega) ?_
          intro p hp1 hp2
          exact lo2 p (by omega)
        have e3 : right + 1 - (mid + 1) = right - mid := by omega
        rw [e3] at perm2
        have hC2 : seg r₁.1 (mid + 1) (right - mid) = seg a (mid + 1) (right - mid) := by
          refine seg_eq_of_getD _ _ _ _ (by omega) ?_
          intro p hp1 hp2
          exact hi1 p (by omega)
        rw [seg_split_at_mid r₂.1 left mid right hm1 (by omega),
          seg_split_at_mid a left mid right hm1 (by omega)]
        refine List.Perm.append ?_ ?_
        · rw [hB1]
          exact perm1
        · refine perm2.trans ?_
          rw [hC2]
    · rw [mergeSortAux_neg a left right snaps hlr]
      refine ⟨rfl, fun p _ => rfl, fun p _ => rfl, List.Perm.refl _, ?_⟩
      intro p q h1 h2 h3
      have hpq : p = q := by omega
      rw [hpq]

theorem mergeSeg_lastSnapInv (D a : List Int) (left mid right : Nat)
    (snaps : List (List Int)) (h : LastSnapInv D (a, snaps)) :
    LastSnapInv D (mergeSeg a left mid right snaps) := by
  rw [mergeSeg]
  exact mergeWrite_lastSnapInv _ _ D _ _ _ _ _ _ h

theorem mergeSortAux_lastSnapInv (D : List Int) :
    ∀ (n : Nat), ∀ (left right : Nat) (a : List Int) (snaps : List (List Int)),
      right - left ≤ n → LastSnapInv D (a, snaps) →
      LastSnapInv D (mergeSortAux a left right snaps) := by
  intro n
  induction n with
  | zero =>
    intro left right a snaps hb h
    rw [mergeSortAux_neg a left right snaps (by omega)]
    exact h
  | succ n ih =>
    intro left right a snaps hb h
    by_cases hlr : left < right
    · rw [mergeSortAux_pos a left right snaps hlr]
      set mid := (left + right) / 2 with hmid
      have h1 := ih left mid a snaps (by omega) h
      set r₁ := mergeSortAux a left mid snaps with hr₁
      have h2 := ih (mid + 1) right r₁.1 r₁.2 (by omega) h1
      set r₂ := mergeSortAux r₁.1 (mid + 1) right r₁.2 with hr₂
      exact mergeSeg_lastSnapInv D r₂.1 left mid right r₂.2 h2
    · rw [mergeSortAux_neg a left right snaps hlr]
      exact h

theorem mergeSort_spec (D : List Int) :
    (mergeSort D).1.length = D.length ∧ (mergeSort D).1.Perm D ∧
      List.Sorted (· ≤ ·) (mergeSort D).1 ∧ LastSnapInv D (mergeSort D) := by
  have he : mergeSort D = mergeSortAux D 0 (D.length - 1) [] := rfl
  by_cases hD : D.length = 0
  · have hnil : D = [] := List.length_eq_zero.mp hD
    rw [he, hnil, mergeSortAux_neg _ _ _ _ (by simp)]
    exact ⟨rfl, List.Perm.refl _, List.sorted_nil, Or.inl ⟨rfl, rfl⟩⟩
  · obtain ⟨hlen, _, _, hperm, hsort⟩ :=
      mergeSortAux_spec (D.length - 1) 0 (D.length - 1) D [] (by omega) (by omega)
    have hsnap := mergeSortAux_lastSnapInv D (D.length - 1) 0 (D.length - 1) D []
      (by omega) (Or.inl ⟨rfl, rfl⟩)
    rw [he]
    refine ⟨hlen, ?_, ?_, hsnap⟩
    · have e : D.length - 1 + 1 - 0 = D.length := by omega
      rw [e] at hperm
      have hseg0 : ∀ (X : List Int), X.length = D.length → seg X 0 D.length = X := by
        intro X hX
        rw [seg, List.drop_zero, ← hX, List.take_length]
      rwa [hseg0 _ hlen, hseg0 D rfl] at hperm
    · refine sorted_of_getD_pairwise _ fun p q hpq hq => ?_
      rw [hlen] at hq
      exact hsort p q (by omega) (by omega) (by omega)

/-!
## Quick sort
-/

theorem partitionLoop_inv (a : List Int) (pivot : Int) (low high : Nat)
    (hlh : low ≤ high) (hhl : high < a.length) :
    ∀ t, t ≤ high - low →
      ((List.range' low t).foldl (partitionLoop pivot) (low, a)).2.length = a.length ∧
      ((List.range' low t).foldl (partitionLoop pivot) (low, a)).2.Perm a ∧
      low ≤ ((List.range' low t).foldl (partitionLoop pivot) (low, a)).1 ∧
      ((List.range' low t).foldl (partitionLoop pivot) (low, a)).1 ≤ low + t ∧
      (∀ p, p < low →
        ((List.range' low t).foldl (partitionLoop pivot) (low, a)).2.getD p 0 = a.getD p 0) ∧
      (∀ p, low + t ≤ p →
        ((List.range' low t).foldl (partitionLoop pivot) (low, a)).2.getD p 0 = a.getD p 0) ∧
      (∀ p, low ≤ p → p < ((List.range' low t).foldl (partitionLoop pivot) (low, a)).1 →
        ((List.range' low t).foldl (partitionLoop pivot) (low, a)).2.getD p 0 ≤ pivot) ∧
      (∀ p, ((List.range' low t).foldl (partitionLoop pivot) (low, a)).1 ≤ p →
        p < low + t →
        pivot < ((List.range' low t).foldl (partitionLoop pivot) (low, a)).2.getD p 0) := by
  intro t
  induction t with
  | zero =>
    intro _
    exact ⟨by simp, by simp, by simp, by simp, fun p _ => by simp,
      fun p _ => by simp, fun p h1 h2 => by simp at h2; omega,
      fun p h1 h2 => by simp at h1; omega⟩
  | succ t ih =>
    intro ht1
    obtain ⟨hlen, hperm, hk1, hk2, hbelow, habove, hsmall, hbig⟩ := ih (by omega)
    have hrange : List.range' low (t + 1) = List.range' low t ++ [low + t] := by
      rw [List.range'_concat]
      congr 1
      simp
    rw [hrange, List.foldl_append, List.foldl_cons, List.foldl_nil]
    set st := (List.range' low t).foldl (partitionLoop pivot) (low, a) with hst
    have hjlen : low + t < a.length := by omega
    have hklen : st.1 < st.2.length := by omega
    rw [partitionLoop]
    by_cases hc : st.2.getD (low + t) 0 ≤ pivot
    · rw [if_pos hc]
      dsimp only
      have hswl : (listSwap st.2 st.1 (low + t)).length = st.2.length := by simp
      have hbk : (listSwap st.2 st.1 (low + t)).getD st.1 0 = st.2.getD (low + t) 0 := by
        by_cases hkj : st.1 = low + t
        · rw [← hkj, getD_listSwap_snd _ (by omega), hkj]
        · exact getD_listSwap_fst _ hkj (by omega)
      have hbj : (listSwap st.2 st.1 (low + t)).getD (low + t) 0 = st.2.getD st.1 0 :=
        getD_listSwap_snd _ (by omega)
      refine ⟨by omega, ?_, by omega, by omega, ?_, ?_, ?_, ?_⟩
      · exact (listSwap_perm st.2 (by omega) (by omega)).trans hperm
      · intro p hp
        rw [getD_listSwap_other _ (by omega) (by omega)]
        exact hbelow p hp
      · intro p hp
        rw [getD_listSwap_other _ (by omega) (by omega)]
        exact habove p (by omega)
      · intro p hp1 hp2
        by_cases hpk : p = st.1
        · rw [hpk, hbk]
          exact hc
        · rw [getD_listSwap_other _ (by omega) (by omega)]
          exact hsmall p hp1 (by omega)
      · intro p hp1 hp2
        by_cases hkj : st.1 = low + t
        · omega
        · by_cases hpj : p = low + t
          · rw [hpj, hbj]
            exact hbig st.1 (le_refl _) (by omega)
          · rw [getD_listSwap_other _ (by omega) (by omega)]
            exact hbig p (by omega) (by omega)
    · rw [if_neg hc]
      refine ⟨hlen, hperm, by omega, by omega, hbelow, ?_, hsmall, ?_⟩
      · intro p hp
        exact habove p (by omega)
      · intro p hp1 hp2
        by_cases hpj : p = low + t
        · rw [hpj]
          exact lt_of_not_le hc
        · exact hbig p hp1 (by omega)

theorem partition_spec (a : List Int) (low high : Nat) (hlh : low ≤ high)
    (hhl : high < a.length) :
    (partition a low high).2.length = a.length ∧
    (partition a low high).2.Perm a ∧
    low ≤ (partition a low high).1 ∧ (partition a low high).1 ≤ high ∧
    (∀ p, p < low → (partition a low high).2.getD p 0 = a.getD p 0) ∧
    (∀ p, high < p → (partition a low high).2.getD p 0 = a.getD p 0) ∧
    (∀ p, low ≤ p → p < (partition a low high).1 →
      (partition a low high).2.getD p 0 ≤
        (partition a low high).2.getD (partition a low high).1 0) ∧
    (∀ p, (partition a low high).1 < p → p ≤ high →
      (partition a low high).2.getD (partition a low high).1 0 <
        (partition a low high).2.getD p 0) := by
  obtain ⟨hlen, hperm, hk1, hk2, hbelow, habove, hsmall, hbig⟩ :=
    partitionLoop_inv a (a.getD high 0) low high hlh hhl (high - low) (le_refl _)
  set st := (List.range' low (high - low)).foldl
    (partitionLoop (a.getD high 0)) (low, a) with hst
  have hpe : partition a low high = (st.1, listSwap st.2 st.1 high) := rfl
  rw [hpe]
  dsimp only
  have hkh : st.1 ≤ high := by omega
  have hkl : st.1 < st.2.length := by omega
  have hbhigh : st.2.getD high 0 = a.getD high 0 := habove high (by omega)
  have hck : (listSwap st.2 st.1 high).getD st.1 0 = a.getD high 0 := by
    by_cases hkj : st.1 = high
    · rw [← hkj] at hbhigh ⊢
      rw [getD_listSwap_snd _ (by omega), hbhigh]
    · rw [getD_listSwap_fst _ hkj (by omega), hbhigh]
  refine ⟨by simp; omega, ?_, by omega, by omega, ?_, ?_, ?_, ?_⟩
  · exact (listSwap_perm st.2 (by omega) (by omega)).trans hperm
  · intro p hp
    rw [getD_listSwap_other _ (by omega) (by omega)]
    exact hbelow p hp
  · intro p hp
    rw [getD_listSwap_other _ (by omega) (by omega)]
    exact habove p (by omega)
  · intro p hp1 hp2
    rw [hck, getD_listSwap_other _ (by omega) (by omega)]
    exact hsmall p hp1 hp2
  · intro p hp1 hp2
    rw [hck]
    by_cases hph : p = high
    · rw [hph, getD_listSwap_snd _ (by omega)]
      exact hbig st.1 (le_refl _) (by omega)
    · rw [getD_listSwap_other _ (by omega) (by omega)]
      exact hbig p (by omega) (by omega)

theorem quickSortAux_pos (a : List Int) (low high : Nat)
    (snaps : List (List Int)) (h : low < high) :
    quickSortAux a low high snaps =
      quickSortAux
        (quickSortAux (partition a low high).2 low ((partition a low high).1 - 1)
          (snaps ++ [(partition a low high).2])).1
        ((partition a low high).1 + 1) high
        (quickSortAux (partition a low high).2 low ((partition a low high).1 - 1)
          (snaps ++ [(partition a low high).2])).2 := by
  rw [quickSortAux]
  rw [dif_pos h]

theorem quickSortAux_neg (a : List Int) (low high : Nat)
    (snaps : List (List Int)) (h : ¬ low < high) :
    quickSortAux a low high snaps = (a, snaps) := by
  rw [quickSortAux]
  rw [dif_neg h]

theorem quickSortAux_spec :
    ∀ (n : Nat), ∀ (low high : Nat) (a : List Int) (snaps : List (List Int)),
      high - low ≤ n → high < a.length →
      (quickSortAux a low high snaps).1.length = a.length ∧
      (∀ p, p < low → (quickSortAux a low high snaps).1.getD p 0 = a.getD p 0) ∧
      (∀ p, high < p → (quickSortAux a low high snaps).1.getD p 0 = a.getD p 0) ∧
      (seg (quickSortAux a low high snaps).1 low (high + 1 - low)).Perm
        (seg a low (high + 1 - low)) ∧
      SortedSeg (quickSortAux a low high snaps).1 low high := by
  intro n
  induction n with
  | zero =>
    intro low high a snaps hb hlen
    rw [quickSortAux_neg a low high snaps (by omega)]
    refine ⟨rfl, fun p _ => rfl, fun p _ => rfl, List.Perm.refl _, ?_⟩
    intro p q h1 h2 h3
    have hpq : p = q := by omega
    rw [hpq]
  | succ n ih =>
    intro low high a snaps hb hlen
    by_cases hlh : low < high
    · rw [quickSortAux_pos a low high snaps hlh]
      obtain ⟨clen, cperm, hk1, hk2, clo, chi, csmall, cbig⟩ :=
        partition_spec a low high (by omega) hlen
      set piv := (partition a low high).1 with hpiv
      set c := (partition a low high).2 with hcdef
      set r₁ := quickSortAux c low (piv - 1) (snaps ++ [c]) with hr₁
      have hL : r₁.1.length = a.length ∧
          (∀ p, p < low → r₁.1.getD p 0 = c.getD p 0) ∧
          (∀ p, piv ≤ p → r₁.1.getD p 0 = c.getD p 0) ∧
          (seg r₁.1 low (piv - low)).Perm (seg c low (piv - low)) ∧
          (∀ p q, low ≤ p → p ≤ q → q < piv →
            r₁.1.getD p 0 ≤ r₁.1.getD q 0) := by
        by_cases hpl : low < piv
        · obtain ⟨l1, l2, l3, l4, l5⟩ :=
            ih low (piv - 1) c (snaps ++ [c]) (by omega) (by omega)
          rw [← hr₁] at l1 l2 l3 l4 l5
          have e : piv - 1 + 1 - low = piv - low := by omega
          rw [e] at l4
          refine ⟨by omega, l2, ?_, l4, ?_⟩
          · intro p hp
            exact l3 p (by omega)
          · intro p q h1 h2 h3
            exact l5 p q h1 h2 (by omega)
        · have hple : piv = low := by omega
          have hneg : r₁ = (c, snaps ++ [c]) := by
            rw [hr₁, quickSortAux_neg _ _ _ _ (by omega)]
          rw [hneg]
          refine ⟨by dsimp only; omega, fun p _ => rfl, fun p _ => rfl,
            List.Perm.refl _, ?_⟩
          intro p q h1 h2 h3
          omega
      obtain ⟨L1, L2, L3, L4, L5⟩ := hL
      obtain ⟨R1, R2, R3, R4, R5⟩ :=
        ih (piv + 1) high r₁.1 r₁.2 (by omega) (by omega)
      set r₂ := quickSortAux r₁.1 (piv + 1) high r₁.2 with hr₂
      have e2 : high + 1 - (piv + 1) = high - piv := by omega
      rw [e2] at R4
      have hFlen : r₂.1.length = a.length := by omega
      have H3 : r₂.1.getD piv 0 = c.getD piv 0 := by
        rw [R2 piv (by omega), L3 piv (le_refl _)]
      have hsegF2 : seg r₂.1 (piv + 1) (high - piv) =
          seg r₂.1 (piv + 1) (high - piv) := rfl
      have hsegr₁c2 : seg r₁.1 (piv + 1) (high - piv)
          = seg c (piv + 1) (high - piv) := by
        refine seg_eq_of_getD _ _ _ _ (by omega) ?_
        intro p hp1 hp2
        exact L3 p (by omega)
      have hsegr₁piv : seg r₁.1 piv 1 = seg c piv 1 := by
        refine seg_eq_of_getD _ _ _ _ (by omega) ?_
        intro p hp1 hp2
        exact L3 p (by omega)
      have H1 : ∀ p, low ≤ p → p < piv → r₂.1.getD p 0 ≤ c.getD piv 0 := by
        intro p hp1 hp2
        rw [R2 p (by omega)]
        have hmem : r₁.1.getD p 0 ∈ seg r₁.1 low (piv - low) :=
          mem_seg_getD r₁.1 low (piv - low) p hp1 (by omega) (by omega)
        have hmem2 : r₁.1.getD p 0 ∈ seg c low (piv - low) := L4.subset hmem
        obtain ⟨t, ht1, ht2, hval⟩ := seg_mem_getD c low (piv - low) hmem2
        rw [hval]
        exact csmall (low + t) (by omega) (by omega)
      have H2 : ∀ q, piv < q → q ≤ high → c.getD piv 0 < r₂.1.getD q 0 := by
        intro q hq1 hq2
        have hmem : r₂.1.getD q 0 ∈ seg r₂.1 (piv + 1) (high - piv) :=
          mem_seg_getD r₂.1 (piv + 1) (high - piv) q (by omega) (by omega) (by omega)
        have hmem2 : r₂.1.getD q 0 ∈ seg c (piv + 1) (high - piv) := by
          rw [← hsegr₁c2]
          exact R4.subset hmem
        obtain ⟨t, ht1, ht2, hval⟩ := seg_mem_getD c (piv + 1) (high - piv) hmem2
        rw [hval]
        exact cbig (piv + 1 + t) (by omega) (by omega)
      refine ⟨hFlen, ?_, ?_, ?_, ?_⟩
      · intro p hp
        rw [R2 p (by omega), L2 p hp, clo p hp]
      · intro p hp
        rw [R3 p hp, L3 p (by omega), chi p hp]
      · refine List.Perm.trans ?_
          (seg_perm_of_perm c a low (high + 1 - low) (by omega) cperm clo ?_)
        · rw [seg_split_at_mid r₂.1 low piv high (by omega) (by omega),
            seg_split_at_mid c low piv high (by omega) (by omega)]
          refine List.Perm.append ?_ ?_
          · have e4 : seg r₂.1 low (piv + 1 - low) = seg r₁.1 low (piv + 1 - low) := by
              refine seg_eq_of_getD _ _ _ _ (by omega) ?_
              intro p hp1 hp2
              exact R2 p (by omega)
            rw [e4]
            have s1 : seg r₁.1 low (piv + 1 - low)
                = seg r₁.1 low (piv - low) ++ seg r₁.1 piv 1 := by
              have h := seg_split r₁.1 low (piv + 1 - low) (piv - low) (by omega)
              rwa [show low + (piv - low) = piv by omega,
                show piv + 1 - low - (piv - low) = 1 by omega] at h
            have s2 : seg c low (piv + 1 - low)
                = seg c low (piv - low) ++ seg c piv 1 := by
              have h := seg_split c low (piv + 1 - low) (piv - low) (by omega)
              rwa [show low + (piv - low) = piv by omega,
                show piv + 1 - low - (piv - low) = 1 by omega] at h
            rw [s1, s2, hsegr₁piv]
            exact List.Perm.append L4 (List.Perm.refl _)
          · refine R4.trans ?_
            rw [hsegr₁c2]
        · intro p hp
          exact chi p (by omega)
      · intro p q hlp hpq hqh
        by_cases hqp : q < piv
        · rw [R2 p (by omega), R2 q (by omega)]
          exact L5 p q hlp hpq hqp
        · by_cases hqe : q = piv
          · by_cases hpe : p = piv
            · rw [hpe, hqe]
            · rw [hqe, H3]
              exact H1 p hlp (by omega)
          · have hqgt : piv < q := by omega
            by_cases hpp : p < piv
            · exact le_trans (H1 p hlp hpp) (le_of_lt (H2 q hqgt hqh))
            · by_cases hpe : p = piv
              · rw [hpe, H3]
                exact le_of_lt (H2 q hqgt hqh)
              · exact R5 p q (by omega) hpq hqh
    · rw [quickSortAux_neg a low high snaps hlh]
      refine ⟨rfl, fun p _ => rfl, fun p _ => rfl, List.Perm.refl _, ?_⟩
      intro p q h1 h2 h3
      have hpq : p = q := by omega
      rw [hpq]

theorem quickSortAux_lastSnapInv (D : List Int) :
    ∀ (n : Nat), ∀ (low high : Nat) (a : List Int) (snaps : List (List Int)),
      high - low ≤ n → LastSnapInv D (a, snaps) →
      LastSnapInv D (quickSortAux a low high snaps) := by
  intro n
  induction n with
  | zero =>
    intro low high a snaps hb h
    rw [quickSortAux_neg a low high snaps (by omega)]
    exact h
  | succ n ih =>
    intro low high a snaps hb h
    by_cases hlh : low < high
    · rw [quickSortAux_pos a low high snaps hlh]
      have hk := partition_fst_bounds a low high (by omega)
      set piv := (partition a low high).1 with hpiv
      set c := (partition a low high).2 with hcdef
      have h1 := ih low (piv - 1) c (snaps ++ [c]) (by omega)
        (lastSnapInv_append D c snaps)
      set r₁ := quickSortAux c low (piv - 1) (snaps ++ [c]) with hr₁
      exact ih (piv + 1) high r₁.1 r₁.2 (by omega) h1
    · rw [quickSortAux_neg a low high snaps hlh]
      exact h

theorem quickSort_spec (D : List Int) :
    (quickSort D).1.length = D.length ∧ (quickSort D).1.Perm D ∧
      List.Sorted (· ≤ ·) (quickSort D).1 ∧ LastSnapInv D (quickSort D) := by
  have he : quickSort D = quickSortAux D 0 (D.length - 1) [] := rfl
  by_cases hD : D.length = 0
  · have hnil : D = [] := List.length_eq_zero.mp hD
    rw [he, hnil, quickSortAux_neg _ _ _ _ (by simp)]
    exact ⟨rfl, List.Perm.refl _, List.sorted_nil, Or.inl ⟨rfl, rfl⟩⟩
  · obtain ⟨hlen, _, _, hperm, hsort⟩ :=
      quickSortAux_spec (D.length - 1) 0 (D.length - 1) D [] (by omega) (by omega)
    have hsnap := quickSortAux_lastSnapInv D (D.length - 1) 0 (D.length - 1) D []
      (by omega) (Or.inl ⟨rfl, rfl⟩)
    rw [he]
    refine ⟨hlen, ?_, ?_, hsnap⟩
    · have e : D.length - 1 + 1 - 0 = D.length := by omega
      rw [e] at hperm
      have hseg0 : ∀ (X : List Int), X.length = D.length → seg X 0 D.length = X := by
        intro X hX
        rw [seg, List.drop_zero, ← hX, List.take_length]
      rwa [hseg0 _ hlen, hseg0 D rfl] at hperm
    · refine sorted_of_getD_pairwise _ fun p q hpq hq => ?_
      rw [hlen] at hq
      exact hsort p q (by omega) (by omega) (by omega)

/-- The number of `_partition` calls a run of `_quick_sort` performs,
following the recursion of `quickSortAux` exactly. -/
def quickPartCount (a : List Int) (low high : Nat) : Nat :=
  if h : low < high then
    let p := partition a low high
    have hp := partition_fst_bounds a low high (Nat.le_of_lt h)
    1 + quickPartCount p.2 low (p.1 - 1) +
      quickPartCount (quickSortAux p.2 low (p.1 - 1) []).1 (p.1 + 1) high
  else 0
termination_by high - low
decreasing_by
  · omega
  · omega

theorem quickPartCount_pos (a : List Int) (low high : Nat) (h : low < high) :
    quickPartCount a low high =
      1 + quickPartCount (partition a low high).2 low ((partition a low high).1 - 1) +
        quickPartCount
          (quickSortAux (partition a low high).2 low ((partition a low high).1 - 1) []).1
          ((partition a low high).1 + 1) high := by
  rw [quickPartCount]
  rw [dif_pos h]

theorem quickPartCount_neg (a : List Int) (low high : Nat) (h : ¬ low < high) :
    quickPartCount a low high = 0 := by
  rw [quickPartCount]
  rw [dif_neg h]

theorem quickSortAux_fst_snaps_indep :
    ∀ (n : Nat), ∀ (low high : Nat) (a : List Int) (s₁ s₂ : List (List Int)),
      high - low ≤ n →
      (quickSortAux a low high s₁).1 = (quickSortAux a low high s₂).1 := by
  intro n
  induction n with
  | zero =>
    intro low high a s₁ s₂ hb
    rw [quickSortAux_neg a low high s₁ (by omega),
      quickSortAux_neg a low high s₂ (by omega)]
  | succ n ih =>
    intro low high a s₁ s₂ hb
    by_cases hlh : low < high
    · rw [quickSortAux_pos a low high s₁ hlh, quickSortAux_pos a low high s₂ hlh]
      have hk := partition_fst_bounds a low high (by omega)
      set piv := (partition a low high).1 with hpiv
      set c := (partition a low high).2 with hcdef
      have h1 : (quickSortAux c low (piv - 1) (s₁ ++ [c])).1
          = (quickSortAux c low (piv - 1) (s₂ ++ [c])).1 :=
        ih low (piv - 1) c _ _ (by omega)
      rw [h1]
      exact ih (piv + 1) high _ _ _ (by omega)
    · rw [quickSortAux_neg a low high s₁ hlh, quickSortAux_neg a low high s₂ hlh]

theorem quickSortAux_snaps_count :
    ∀ (n : Nat), ∀ (low high : Nat) (a : List Int) (snaps : List (List Int)),
      high - low ≤ n →
      (quickSortAux a low high snaps).2.length
        = snaps.length + quickPartCount a low high := by
  intro n
  induction n with
  | zero =>
    intro low high a snaps hb
    rw [quickSortAux_neg a low high snaps (by omega),
      quickPartCount_neg a low high (by omega)]
    rfl
  | succ n ih =>
    intro low high a snaps hb
    by_cases hlh : low < high
    · rw [quickSortAux_pos a low high snaps hlh, quickPartCount_pos a low high hlh]
      have hk := partition_fst_bounds a low high (by omega)
      set piv := (partition a low high).1 with hpiv
      set c := (partition a low high).2 with hcdef
      have h1 : (quickSortAux c low (piv - 1) (snaps ++ [c])).2.length
          = (snaps ++ [c]).length + quickPartCount c low (piv - 1) :=
        ih low (piv - 1) c _ (by omega)
      have hind : (quickSortAux c low (piv - 1) (snaps ++ [c])).1
          = (quickSortAux c low (piv - 1) []).1 :=
        quickSortAux_fst_snaps_indep (piv - 1 - low) low (piv - 1) c _ _ (le_refl _)
      have h2 := ih (piv + 1) high
        (quickSortAux c low (piv - 1) (snaps ++ [c])).1
        (quickSortAux c low (piv - 1) (snaps ++ [c])).2 (by omega)
      rw [h2, h1, hind]
      simp
      omega
    · rw [quickSortAux_neg a low high snaps hlh,
        quickPartCount_neg a low high hlh]
      rfl

/-!
## The claims
-/

theorem eventSnapshots_cons_report_map (l : List (List Int)) :
    eventSnapshots (Event.report :: l.map Event.snap) = l := by
  induction l with
  | nil => rfl
  | cons x xs ih =>
    simp only [eventSnapshots, List.map_cons, List.filterMap_cons] at ih ⊢
    exact congrArg (x :: ·) ih

/-- C1: for every finite dataset and each of the five variants, the final
array is `D` sorted ascending and a permutation of `D`, and whenever the
snapshot sequence is nonempty its last snapshot equals that final array. -/
theorem C1_final_snapshot_sorted_perm :
    ∀ (s : Strategy) (D : List Int),
      (strategySort s D).1.Perm D ∧
      List.Sorted (· ≤ ·) (strategySort s D).1 ∧
      ((strategySort s D).2 ≠ [] →
        (strategySort s D).2.getLast? = some (strategySort s D).1) := by
  intro s D
  have key : (strategySort s D).1.Perm D ∧
      List.Sorted (· ≤ ·) (strategySort s D).1 ∧
      LastSnapInv D (strategySort s D) := by
    cases s with
    | bubble =>
      obtain ⟨_, h2, h3, h4⟩ := bubbleSort_spec D
      exact ⟨h2, h3, h4⟩
    | insertion =>
      obtain ⟨_, h2, h3, h4⟩ := insertionSort_spec D
      exact ⟨h2, h3, h4⟩
    | merge =>
      obtain ⟨_, h2, h3, h4⟩ := mergeSort_spec D
      exact ⟨h2, h3, h4⟩
    | quick =>
      obtain ⟨_, h2, h3, h4⟩ := quickSort_spec D
      exact ⟨h2, h3, h4⟩
    | selection =>
      obtain ⟨_, h2, h3, h4, h5⟩ := selectionSort_spec D
      exact ⟨h2, h3, h5⟩
  obtain ⟨h1, h2, h3⟩ := key
  refine ⟨h1, h2, fun hne => ?_⟩
  rcases h3 with ⟨he, _⟩ | hl
  · exact absurd he hne
  · exact hl

/-- Witness for C1 at the concrete dataset `[2, 1]` with bubble sort. -/
theorem C1_witness :
    (strategySort Strategy.bubble [2, 1]).2 ≠ [] ∧
    (strategySort Strategy.bubble [2, 1]).2.getLast?
      = some (strategySort Strategy.bubble [2, 1]).1 :=
  ⟨by decide, (C1_final_snapshot_sorted_perm Strategy.bubble [2, 1]).2.2 (by decide)⟩

/-- C2: the spec demands that the elapsed-time report be emitted only after
the whole lazy snapshot sequence is drained; in the code the decorator's
`print` runs as soon as `sort(…)` returns the generator object, before any
snapshot is yielded.  Concretely, on bubble sort of `[2, 1]` the report is
the first observable event of the run, preceding the lone snapshot. -/
theorem C2_report_emitted_before_drain :
    timedTrace bubbleSort [2, 1] = [Event.report, Event.snap [1, 2]] ∧
    (timedTrace bubbleSort [2, 1]).head? = some Event.report := by
  constructor
  · decide
  · decide

/-- C3 counterexample: `AlgorithmContext.execute` passes the caller's list
object straight to the strategy without copying, so draining the returned
generator mutates the very object passed; the caller's list `[2, 1]` ends
up `[1, 2]`, not unchanged. -/
theorem C3_execute_mutates_passed_list :
    ((AlgorithmContext.mk Strategy.bubble).executeDrain Ref.stored
      (fun _ => [2, 1])).1 Ref.stored ≠ [2, 1] := by
  decide

/-- C3 (amended): the private working copy is made by the caller, not by
`execute`: `run_sort` passes `self.data.copy()` into `execute`, so after the
sequence is fully consumed the stored dataset is untouched and the fresh
copy holds the sorted result. -/
theorem C3_run_sort_keeps_stored_unchanged :
    ∀ (c : AlgorithmContext) (h : Ref → List Int),
      (run_sort c h).1 Ref.stored = h Ref.stored ∧
      (run_sort c h).1 Ref.fresh = (strategySort c.strategy (h Ref.stored)).1 := by
  intro c h
  constructor
  · rfl
  · rfl

/-- C4: the playback loop in `run_sort` consults no cancellation flag, so a
cancel signal after the second render changes nothing: on selection sort of
`[5, 3, 4, 1, 2]` all 5 snapshots are rendered, not 2. -/
theorem C4_cancel_signal_has_no_effect :
    (renderedWithCancelAt (AlgorithmContext.mk Strategy.selection)
      (fun _ => [5, 3, 4, 1, 2]) 2).length = 5 ∧ (5 : Nat) ≠ 2 := by
  constructor
  · decide
  · decide

/-- C5: every variant on the empty dataset yields the empty snapshot
sequence (and an empty final array), with no failure — each embedded sort
is a total function. -/
theorem C5_empty_dataset_empty_sequence :
    ∀ s : Strategy, strategySort s [] = ([], []) := by
  intro s
  cases s with
  | bubble => rfl
  | insertion => rfl
  | merge => simp [strategySort, mergeSort, mergeSortAux]
  | quick => simp [strategySort, quickSort, quickSortAux]
  | selection => rfl

/-- C6: quick sort emits exactly one snapshot per partition call (none
during the partition's internal swaps), and on `[2, 1]` it performs one
partition call and emits the single snapshot `[1, 2]`. -/
theorem C6_quick_one_snapshot_per_partition :
    (∀ D : List Int,
      (quickSort D).2.length = quickPartCount D 0 (D.length - 1)) ∧
    quickSort [2, 1] = ([1, 2], [[1, 2]]) ∧
    quickPartCount [2, 1] 0 1 = 1 := by
  refine ⟨?_, ?_, ?_⟩
  · intro D
    have h := quickSortAux_snaps_count (D.length - 1) 0 (D.length - 1) D []
      (by omega)
    simpa [quickSort] using h
  · simp [quickSort, quickSortAux, partition, partitionLoop, listSwap]
  · simp [quickPartCount, quickSortAux, partition, partitionLoop, listSwap]

/-- C7: selection sort emits exactly one snapshot per outer iteration, so
`n` snapshots on an `n`-element dataset; on `[5, 3, 4, 1, 2]` exactly 5
snapshots with final snapshot `[1, 2, 3, 4, 5]`. -/
theorem C7_selection_one_snapshot_per_iteration :
    (∀ D : List Int, (selectionSort D).2.length = D.length) ∧
    (selectionSort [5, 3, 4, 1, 2]).2.length = 5 ∧
    (selectionSort [5, 3, 4, 1, 2]).2.getLast? = some [1, 2, 3, 4, 5] := by
  refine ⟨fun D => (selectionSort_spec D).2.2.2.1, by decide, by decide⟩

/-- C8: bubble sort emits a snapshot only on a swap, so an already-sorted
dataset produces zero snapshots and is returned unchanged; concretely on
`[1, 2, 3]`. -/
theorem C8_bubble_sorted_zero_snapshots :
    (∀ D : List Int, List.Sorted (· ≤ ·) D → bubbleSort D = (D, [])) ∧
    bubbleSort [1, 2, 3] = ([1, 2, 3], []) :=
  ⟨fun D h => bubbleSort_sorted_id D h, by decide⟩

/-- Witness for C8 at the sorted dataset `[1, 2, 3]`. -/
theorem C8_witness :
    List.Sorted (· ≤ ·) ([1, 2, 3] : List Int) ∧
    bubbleSort [1, 2, 3] = ([1, 2, 3], []) :=
  ⟨by decide, C8_bubble_sorted_zero_snapshots.1 [1, 2, 3] (by decide)⟩

/-- C9: the timing wrapper yields exactly the snapshots of the unwrapped
sort — same elements, order and count — since it returns the generator
unchanged and only adds the report event. -/
theorem C9_wrapper_preserves_snapshots :
    ∀ (s : Strategy) (D : List Int),
      eventSnapshots (timedTrace (strategySort s) D) = (strategySort s D).2 := by
  intro s D
  rw [timedTrace]
  exact eventSnapshots_cons_report_map ((strategySort s D).2)

/-- C10: every variant is deterministic: equal input datasets produce
identical (final array, snapshot sequence) pairs. -/
theorem C10_deterministic_runs :
    ∀ (s : Strategy) (D₁ D₂ : List Int), D₁ = D₂ →
      strategySort s D₁ = strategySort s D₂ := by
  intro s D₁ D₂ h
  rw [h]

/-- Witness for C10 at quick sort on `[2, 1]`. -/
theorem C10_witness :
    strategySort Strategy.quick [2, 1] = strategySort Strategy.quick [2, 1] :=
  C10_deterministic_runs Strategy.quick [2, 1] [2, 1] rfl
